import Mathlib

/-!
# Verification of go-ng/xsort ("Appended" resorting)

Shallow embedding of the xsort package: the entry points `Appended` and
`AppendedWithBuf`, the in-place engine `groupInsertAppendSort`, the buffered
engine `groupInsertAppendSortWithBuf`, the heuristic selectors, and the
alternative heap-merge engine `heapAppendSort` (package "sort" in the sources).

Sequences are embedded as `List Int` (the element type is the standard
totally ordered instantiation; every algorithm only uses index-based `Less`
comparisons and moves). Go's `uint` arithmetic is modelled as `Nat` with
explicit reduction modulo 2^64 at the operations where overflow can occur.
Fallible operations (Go panics, and instrumented out-of-range accesses) are
modelled in an `Except` monad whose error carries the sequence contents at
the moment the error is raised.
-/

open List

/-- Error outcomes of a call: a Go panic aborts the computation.  Each
constructor (except fuel exhaustion) carries the sequence contents at the
moment the error is raised. -/
inductive SErr : Type
  | tailTooLong (st : List Int)
  | oob (st : List Int)
  | unreachableState (st : List Int)
  | noFuel
deriving DecidableEq, Repr

/-- The embedding monad: a result or an aborting error. -/
abbrev SM (α : Type) := Except SErr α

/-- The sequence contents carried by an error, if any. -/
def errState : SErr → Option (List Int)
  | .tailTooLong st => some st
  | .oob st => some st
  | .unreachableState st => some st
  | .noFuel => none

/-- Checked indexed read (Go `s[i]` / `s.Less` operand access). -/
def getE (s : List Int) (i : Nat) : SM Int :=
  if h : i < s.length then pure (s.get ⟨i, h⟩) else throw (.oob s)

/-- Checked indexed write (Go `s[i] = v`). -/
def setE (s : List Int) (i : Nat) (v : Int) : SM (List Int) :=
  if i < s.length then pure (s.set i v) else throw (.oob s)

/-- Checked swap (Go `s[i], s[j] = s[j], s[i]`). -/
def swapE (s : List Int) (i j : Nat) : SM (List Int) := do
  let a ← getE s i
  let b ← getE s j
  pure ((s.set i b).set j a)

/-- The sub-window `s[lo:hi]` of a sequence. -/
def extract (s : List Int) (lo hi : Nat) : List Int := (s.drop lo).take (hi - lo)

/-- Replace the window `[lo, hi)` of a sequence by `w`. -/
def splice (s : List Int) (lo hi : Nat) (w : List Int) : List Int :=
  s.take lo ++ w ++ s.drop hi

/-- Modelled from the spec: go-ng/slices.Rotate on a standalone block
("cyclic rotation: shifting a contiguous block of positions by a fixed
distance, wrapping within the block").  The element at index i moves to
index (i + r) mod length; a negative r shifts leftwards. -/
def rotSeg (l : List Int) (r : Int) : List Int :=
  if l.length = 0 then l
  else
    l.drop (l.length - (r % (l.length : Int)).toNat) ++
      l.take (l.length - (r % (l.length : Int)).toNat)

/-- Go `slices.Rotate(s[lo:hi], r)` with the slice-expression bound checks. -/
def rotateE (s : List Int) (lo hi : Nat) (r : Int) : SM (List Int) :=
  if lo ≤ hi ∧ hi ≤ s.length then pure (splice s lo hi (rotSeg (extract s lo hi) r))
  else throw (.oob s)

/-- Go `slices.Reverse(s[lo:hi])` with the slice-expression bound checks.
Modelled from the spec: go-ng/slices.Reverse reverses a block in place. -/
def reverseE (s : List Int) (lo hi : Nat) : SM (List Int) :=
  if lo ≤ hi ∧ hi ≤ s.length then pure (splice s lo hi (extract s lo hi).reverse)
  else throw (.oob s)

/-- Go `copy(s[dstLo:dstHi], s[srcLo:])`: copies `min` of the two lengths,
with memmove (as-if-buffered) overlap semantics. -/
def copyFwdE (s : List Int) (dstLo dstHi srcLo : Nat) : SM (List Int) :=
  if dstLo ≤ dstHi ∧ dstHi ≤ s.length ∧ srcLo ≤ s.length then
    pure (splice s dstLo (dstLo + min (dstHi - dstLo) (s.length - srcLo))
      (extract s srcLo (srcLo + min (dstHi - dstLo) (s.length - srcLo))))
  else throw (.oob s)

/-- Go `copy(dst, src)` for two distinct slices (used for the scratch
buffer): overwrites the first `min` positions of `dst` with `src`. -/
def copyList (dst src : List Int) : List Int :=
  src.take (min dst.length src.length) ++ dst.drop (min dst.length src.length)

/-- Modelled from the spec: the Full-Sort Fallback (go-ng/sort.Sort), "a
comparison sort with O(n log n) worst-case cost", sorting ascending.  Over a
total order on the values any correct ascending sort produces this list. -/
def goSort (l : List Int) : List Int := l.insertionSort (· ≤ ·)

/-- The full sort applied with the reversed comparator (Go
`sort.Slice(rightPart, func(i, j) { return rightPart.Less(j, i) })`),
i.e. sorting descending. -/
def goSortDesc (l : List Int) : List Int := l.insertionSort (fun a b => b ≤ a)

/-- Sort the window `s[lo:len]` ascending (Go `sort.Sort(s[lo:])`),
with the slice-expression bound check. -/
def sortWinAscE (s : List Int) (lo : Nat) : SM (List Int) :=
  if lo ≤ s.length then pure (splice s lo s.length (goSort (extract s lo s.length)))
  else throw (.oob s)

/-- Sort the window `s[lo:len]` descending, with the bound check. -/
def sortWinDescE (s : List Int) (lo : Nat) : SM (List Int) :=
  if lo ≤ s.length then pure (splice s lo s.length (goSortDesc (extract s lo s.length)))
  else throw (.oob s)

/-- Modelled from the spec: go-ng/sort.Search, Go's standard binary search
returning (for a monotone predicate) the smallest index in [i, j) at which
the predicate holds, or j.  The fuel argument dominates the iteration count;
callers pass the width of the searched range. -/
def goSearchM (f : Nat → SM Bool) : Nat → Nat → Nat → SM Nat
  | 0, i, _ => pure i
  | fuel + 1, i, j =>
    if i < j then do
      let b ← f ((i + j) / 2)
      if b then goSearchM f fuel i ((i + j) / 2)
      else goSearchM f fuel ((i + j) / 2 + 1) j
    else pure i

/-- Go `sort.Search(n, f)`. -/
def goSearch (n : Nat) (f : Nat → SM Bool) : SM Nat := goSearchM f n 0 n

/-- 2^64: Go's `uint` is 64 bits wide on the targeted platforms. -/
def U64 : Nat := 2 ^ 64

/-- Go conversion `int(x)` of a `uint` value (two's complement reinterpretation). -/
def toInt64 (x : Nat) : Int :=
  if x % U64 < 2 ^ 63 then ((x % U64 : Nat) : Int) else ((x % U64 : Nat) : Int) - (U64 : Int)

/-- Go `uint` subtraction `a - b` (wrapping), for `a < 2^64`. -/
def usub64 (a b : Nat) : Nat := (a + U64 - b % U64) % U64

namespace XSort

/-- The in-place heuristic selector of appended.go (`shouldUseAppended`):
true when the in-place engine is judged cheaper than the full sort. -/
def shouldUseAppended (totalSize tailSize : Nat) : Bool :=
  if totalSize < 512 then (tailSize * 4) % U64 < totalSize
  else (tailSize * tailSize) % U64 / 64 < totalSize

/-- The buffered heuristic selector of appended.go (`shouldUseAppendedWithBuf`). -/
def shouldUseAppendedWithBuf (totalSize tailSize : Nat) : Bool :=
  if totalSize < 10 then false
  else if totalSize < 64 then (tailSize * 3) % U64 < totalSize
  else if totalSize < 256 then (tailSize * 2) % U64 < totalSize
  else (tailSize * 5) % U64 < (totalSize * 3) % U64

/-- The main loop of `groupInsertAppendSort` (appended.go): iterates
`unsortedCount` from the tail length down to 1, with state (sequence,
`unsortedStartIdx`, `unsortedEnd`). -/
def giasLoop : Nat → List Int → Nat → Nat → SM (List Int)
  | 0, s, _, _ => pure s
  | c + 1, s, u, e => do
    let li ← goSearch u (fun i => do
      let a ← getE s u
      let b ← getE s i
      pure (decide (a < b)))
    if li = u then
      if u = 0 then
        reverseE s 0 (c + 1)
      else
        let li2 := if 0 < li then li - 1 else li
        let bb ← (do
          let a ← getE s u
          let b ← getE s (u - 1)
          pure (decide (a < b)))
        if bb then do
          let s1 ← rotateE s li2 (li2 + (c + 1) + 1) (-2)
          giasLoop c s1 li2 (li2 + (c + 1) - 1)
        else do
          let s1 ← rotateE s (li2 + 1) (li2 + (c + 1) + 1) (-1)
          giasLoop c s1 (li2 + 1) (li2 + 1 + (c + 1) - 1)
    else do
      let s1 ← rotateE s (li + 1) e ((e : Int) - (u : Int))
      let s2 ← swapE s1 li (li + 1)
      let s3 ← rotateE s2 li (li + (c + 1) + 1) (-2)
      giasLoop c s3 li (li + (c + 1) - 1)

/-- The in-place engine `groupInsertAppendSort` of appended.go. -/
def groupInsertAppendSort (s : List Int) (tailLength : Nat) : SM (List Int) :=
  if toInt64 tailLength > (s.length : Int) then throw (.tailTooLong s)
  else
    let splitIdx := usub64 s.length tailLength
    if splitIdx = 0 then pure (goSort s)
    else do
      let s1 ← sortWinDescE s splitIdx
      giasLoop tailLength s1 splitIdx s.length

/-- The entry point `Appended` of appended.go. -/
def Appended (s : List Int) (tailLength : Nat) : SM (List Int) :=
  if tailLength = 0 then pure s
  else if ¬ shouldUseAppended s.length tailLength then
    if tailLength > s.length then throw (.tailTooLong s)
    else pure (goSort s)
  else groupInsertAppendSort s tailLength

/-- The main loop of `groupInsertAppendSortWithBuf` (appended.go). -/
def gwbLoop (buf : List Int) : Nat → List Int → Nat → Nat → SM (List Int)
  | 0, s, _, _ => pure s
  | c + 1, s, u, e => do
    let v ← getE buf c
    let s1 ← setE s u v
    let li ← goSearch u (fun i => do
      let a ← getE s1 u
      let b ← getE s1 i
      pure (decide (a < b)))
    let s2 ← copyFwdE s1 (li + (c + 1)) e li
    let s3 ← setE s2 (li + (c + 1) - 1) v
    gwbLoop buf c s3 li (li + (c + 1) - 1)

/-- The buffered engine `groupInsertAppendSortWithBuf` of appended.go;
the tail length is the length of the scratch buffer. -/
def groupInsertAppendSortWithBuf (s : List Int) (buf : List Int) : SM (List Int) :=
  if (buf.length : Int) > (s.length : Int) then throw (.tailTooLong s)
  else
    let splitIdx := s.length - buf.length
    if splitIdx = 0 then pure (goSort s)
    else do
      let s1 ← sortWinAscE s splitIdx
      let buf1 := copyList buf (extract s1 splitIdx s.length)
      gwbLoop buf1 buf.length s1 splitIdx s.length

/-- The entry point `AppendedWithBuf` of appended.go. -/
def AppendedWithBuf (s : List Int) (buf : List Int) : SM (List Int) :=
  if buf.length = 0 then pure s
  else if ¬ shouldUseAppendedWithBuf s.length buf.length then
    if buf.length > s.length then throw (.tailTooLong s)
    else pure (goSort s)
  else groupInsertAppendSortWithBuf s buf

end XSort

namespace Hpkg

/-- The heap-merge package's own heuristic selector (`shouldUseAppended`
of the package "sort" source file): distinct thresholds from the
appended.go selector. -/
def shouldUseAppended (totalSize tailSize : Nat) : Bool :=
  if totalSize ≤ 4 then false
  else if totalSize ≤ 128 then 8 * tailSize % U64 < totalSize
  else if totalSize ≤ 4096 then (tailSize * tailSize * 4) % U64 < totalSize
  else tailSize < 64

/-- The ordering abstraction's comparison, Go s.Less(i, j). -/
def lessE (s : List Int) (i j : Nat) : SM Bool := do
  let a ← getE s i
  let b ← getE s j
  pure (decide (a < b))

/-- Go short-circuit "g && s.Less(i, j)": the comparison (and its index
accesses) is evaluated only when the guard holds. -/
def condLessE (g : Bool) (s : List Int) (i j : Nat) : SM Bool :=
  if g then lessE s i j else pure false

/-- Go short-circuit "afh && (!afr || s.Less(i, j))" deciding whether to
pull from the heap rather than from the pre-sorted right part. -/
def chooseHeapE (afh afr : Bool) (s : List Int) (i j : Nat) : SM Bool :=
  if afh then (if afr then lessE s i j else pure true) else pure false

/-- Modelled from the spec: go-ng/container/heap Pop on the min-heap that
occupies the window `s[splitIdx : splitIdx+lh)` of the sequence's own
storage ("used to produce the tail's elements in ascending order one at a
time").  The heap window is modelled as an ascending block: Pop returns the
minimum (the root, read at `splitIdx`) and leaves the popped value in the
freed last slot of the window. -/
def heapPopE (s : List Int) (splitIdx lh : Nat) : SM (Int × List Int) :=
  if splitIdx + lh ≤ s.length then
    match extract s splitIdx (splitIdx + lh) with
    | [] => throw (.oob s)
    | b :: bs => pure (b, splice s splitIdx (splitIdx + lh) (bs ++ [b]))
  else throw (.oob s)

/-- Modelled from the spec: go-ng/container/heap Push of `v` onto the heap
window, which grows by one slot. -/
def heapPushE (s : List Int) (splitIdx lh : Nat) (v : Int) : SM (List Int) :=
  if splitIdx + lh + 1 ≤ s.length then
    pure (splice s splitIdx (splitIdx + lh + 1)
      (List.orderedInsert (· ≤ ·) v (extract s splitIdx (splitIdx + lh))))
  else throw (.oob s)

/-- The main merge pass of `heapAppendSort`: `idx` walks from `modifyStart`
up to `splitIdx`; the counter is `splitIdx - idx`.  State: sequence,
`rightIdx`, heap length, `hasRight`, `hasHeap`. -/
def heapLoop (splitIdx n : Nat) :
    Nat → List Int → Nat → Nat → Nat → Bool → Bool →
    SM (List Int × Nat × Nat × Bool × Bool)
  | 0, s, _, ri, lh, hr, hh => pure (s, ri, lh, hr, hh)
  | c + 1, s, idx, ri, lh, hr, hh => do
    if ¬ hr ∧ ¬ hh then pure (s, ri, lh, hr, hh)
    else do
      let afh ← condLessE hh s splitIdx idx
      let afr ← condLessE hr s ri idx
      if ¬ afr ∧ ¬ afh then heapLoop splitIdx n c s (idx + 1) ri lh hr hh
      else do
        let old ← getE s idx
        let heapFirst ← chooseHeapE afh afr s splitIdx ri
        if heapFirst then do
          let pr ← heapPopE s splitIdx lh
          let s2 ← setE pr.2 idx pr.1
          if ¬ afr then do
            let s3 ← setE s2 (ri - 1) old
            heapLoop splitIdx n c s3 (idx + 1) (ri - 1) (lh - 1) true (decide (lh - 1 > 0))
          else do
            let s3 ← heapPushE s2 splitIdx (lh - 1) old
            heapLoop splitIdx n c s3 (idx + 1) ri (lh - 1 + 1) hr true
        else do
          let afr2 ← condLessE (decide (ri + 1 < n)) s (ri + 1) idx
          let v ← getE s ri
          let s2 ← setE s idx v
          if ¬ afr2 then do
            let s3 ← setE s2 (ri + 1 - 1) old
            heapLoop splitIdx n c s3 (idx + 1) (ri + 1 - 1) lh true hh
          else do
            let s3 ← heapPushE s2 splitIdx lh old
            heapLoop splitIdx n c s3 (idx + 1) (ri + 1) (lh + 1) (decide (ri + 1 < n)) true

/-- The residual handling of `heapAppendSort` after the main merge pass:
return when the heap is empty or a single already-placed element, otherwise
either delegate the whole tail window to the full sort, or rotate the
window and recurse (through the supplied recursion callback) with the
residual heap size as the new tail length. -/
def heapResidual (recur : List Int → Nat → SM (List Int × List (Nat × Nat × Bool)))
    (k splitIdx : Nat) (s2 : List Int) (ri lh : Nat) :
    SM (List Int × List (Nat × Nat × Bool)) :=
  if lh = 0 then pure (s2, [])
  else do
    let earlyOk ← condLessE (decide (lh = 1)) s2 splitIdx ri
    if earlyOk then pure (s2, [])
    else if ¬ shouldUseAppended k lh then
      pure (splice s2 splitIdx s2.length (goSort (extract s2 splitIdx s2.length)),
        [(k, lh, false)])
    else do
      let s3 ← rotateE s2 splitIdx s2.length (toInt64 k - (lh : Int))
      let r ← recur (extract s3 splitIdx s3.length) lh
      pure (splice s3 splitIdx s3.length r.1, (k, lh, true) :: r.2)

/-- The body of `heapAppendSort` past the degenerate cases: sort the tail
window ascending, return early if nothing crosses the split, otherwise run
the main merge pass and hand the final state to the residual handling. -/
def heapGo (recur : List Int → Nat → SM (List Int × List (Nat × Nat × Bool)))
    (s : List Int) (k splitIdx : Nat) : SM (List Int × List (Nat × Nat × Bool)) := do
  let s1 ← sortWinAscE s splitIdx
  let a ← getE s1 splitIdx
  let b ← getE s1 (splitIdx - 1)
  if ¬ (a < b) then pure (s1, [])
  else do
    let ms ← goSearch splitIdx (fun i => do
      let x ← getE s1 splitIdx
      let y ← getE s1 i
      pure (decide (x < y)))
    if ms ≥ splitIdx then throw (.unreachableState s1)
    else do
      let st ← heapLoop splitIdx s1.length (splitIdx - ms) s1 ms splitIdx 0 true false
      heapResidual recur k splitIdx st.1 st.2.1 st.2.2.1

/-- The heap-merge engine `heapAppendSort` of the package "sort" source
file, instrumented to also return, for each residual decision point, the
triple (window size, residual heap size, whether the engine recursed rather
than delegating the residual window to the full sort).  Structured with
explicit fuel: the recursive self-invocation operates on the strictly
smaller tail window `s[splitIdx:]`. -/
def heapAppendSortT : Nat → List Int → Nat → SM (List Int × List (Nat × Nat × Bool))
  | 0, _, _ => throw .noFuel
  | fuel + 1, s, k =>
    if k = 0 then pure (s, [])
    else
      if (s.length : Int) - toInt64 k = 0 then pure (goSort s, [])
      else if ¬ (0 ≤ (s.length : Int) - toInt64 k ∧
          (s.length : Int) - toInt64 k ≤ (s.length : Int)) then
        throw (.oob s)
      else heapGo (heapAppendSortT fuel) s k ((s.length : Int) - toInt64 k).toNat

/-- The heap-merge engine without the instrumentation trace. -/
def heapAppendSort (fuel : Nat) (s : List Int) (k : Nat) : SM (List Int) :=
  (heapAppendSortT fuel s k).map Prod.fst

end Hpkg

/-- Modelled from the spec (4.1), for refinement comparison only: the
in-place threshold with exact (unbounded) arithmetic — "for n < 512, accept
when 4k < n; otherwise accept when k^2/64 < n" (integer division). -/
def specShouldUseInPlace (n k : Nat) : Bool :=
  if n < 512 then 4 * k < n else k * k / 64 < n

/-- Modelled from the spec (4.1), for refinement comparison only: the
buffered threshold with exact arithmetic — "reject outright for n < 10; for
n < 64 accept when 3k < n; for n < 256 accept when 2k < n; otherwise accept
when 5k < 3n". -/
def specShouldUseBuffered (n k : Nat) : Bool :=
  if n < 10 then false
  else if n < 64 then 3 * k < n
  else if n < 256 then 2 * k < n
  else 5 * k < 3 * n

/-! ## Infrastructure lemmas -/

instance : IsTotal Int (fun a b => b ≤ a) := ⟨fun a b => le_total b a⟩

instance : IsTrans Int (fun a b => b ≤ a) := ⟨fun _ _ _ h1 h2 => le_trans h2 h1⟩

@[simp] theorem SM.bind_pure {α β : Type} (x : α) (f : α → SM β) :
    (pure x : SM α) >>= f = f x := rfl

@[simp] theorem SM.bind_throw {α β : Type} (e : SErr) (f : α → SM β) :
    (throw e : SM α) >>= f = throw e := rfl

theorem goSort_sorted (l : List Int) : List.Sorted (· ≤ ·) (goSort l) :=
  List.sorted_insertionSort _ l

theorem goSort_perm (l : List Int) : goSort l ~ l :=
  List.perm_insertionSort _ l

theorem goSort_length (l : List Int) : (goSort l).length = l.length :=
  (goSort_perm l).length_eq

theorem goSortDesc_sorted (l : List Int) : List.Sorted (fun a b => b ≤ a) (goSortDesc l) :=
  List.sorted_insertionSort _ l

theorem goSortDesc_perm (l : List Int) : goSortDesc l ~ l :=
  List.perm_insertionSort _ l

theorem goSortDesc_length (l : List Int) : (goSortDesc l).length = l.length :=
  (goSortDesc_perm l).length_eq

theorem get_append_len (A C : List Int) (x : Int) (i : Nat) (hi : i = A.length)
    (h : i < (A ++ x :: C).length) : (A ++ x :: C).get ⟨i, h⟩ = x := by
  subst hi
  induction A with
  | nil => rfl
  | cons a A ih => simpa using ih (by simpa using h)

theorem getE_append_len (A C : List Int) (x : Int) (i : Nat) (hi : i = A.length) :
    getE (A ++ x :: C) i = pure x := by
  have h : i < (A ++ x :: C).length := by simp [hi]
  rw [getE, dif_pos h, get_append_len A C x i hi]

theorem get_append_lt (A C : List Int) (i : Nat) (hi : i < A.length)
    (h : i < (A ++ C).length) : (A ++ C).get ⟨i, h⟩ = A.getD i 0 := by
  induction A generalizing i with
  | nil => simp at hi
  | cons a A ih =>
    cases i with
    | zero => rfl
    | succ i =>
      have hi' : i < A.length := by simpa using hi
      have h' : i < (A ++ C).length := by simp; omega
      simpa using ih i hi' h'

theorem getE_append_lt (A C : List Int) (i : Nat) (hi : i < A.length) :
    getE (A ++ C) i = pure (A.getD i 0) := by
  have h : i < (A ++ C).length := by simp; omega
  rw [getE, dif_pos h, get_append_lt A C i hi]

theorem set_append_len (A C : List Int) (x v : Int) (i : Nat) (hi : i = A.length) :
    (A ++ x :: C).set i v = A ++ v :: C := by
  subst hi
  induction A with
  | nil => rfl
  | cons a A ih => simpa using ih

theorem setE_append_len (A C : List Int) (x v : Int) (i : Nat) (hi : i = A.length) :
    setE (A ++ x :: C) i v = pure (A ++ v :: C) := by
  have h : i < (A ++ x :: C).length := by simp [hi]
  rw [setE, if_pos h, set_append_len A C x v i hi]

theorem swapE_append (A C : List Int) (x y : Int) (i : Nat) (hi : i = A.length) :
    swapE (A ++ x :: y :: C) i (i + 1) = pure (A ++ y :: x :: C) := by
  have e1 : A ++ x :: y :: C = (A ++ [x]) ++ y :: C := by simp
  have g2 : getE (A ++ x :: y :: C) (i + 1) = pure y := by
    rw [e1]; exact getE_append_len (A ++ [x]) C y (i + 1) (by simp [hi])
  rw [swapE, getE_append_len A (y :: C) x i hi, g2]
  simp only [SM.bind_pure]
  have h1 : (A ++ x :: y :: C).set i y = A ++ y :: y :: C := set_append_len A (y :: C) x y i hi
  have h2 : (A ++ y :: y :: C).set (i + 1) x = A ++ y :: x :: C := by
    have e2 : A ++ y :: y :: C = (A ++ [y]) ++ y :: C := by simp
    have e3 : A ++ y :: x :: C = (A ++ [y]) ++ x :: C := by simp
    rw [e2, e3]; exact set_append_len (A ++ [y]) C y x (i + 1) (by simp [hi])
  rw [h1, h2]

theorem take_append_len (A C : List Int) (i : Nat) (hi : i = A.length) :
    (A ++ C).take i = A := by
  subst hi; exact List.take_left A C

theorem drop_append_len (A C : List Int) (i : Nat) (hi : i = A.length) :
    (A ++ C).drop i = C := by
  subst hi; exact List.drop_left A C

theorem extract_decomp (A B C : List Int) (lo hi : Nat) (h1 : lo = A.length)
    (h2 : hi = lo + B.length) : extract (A ++ B ++ C) lo hi = B := by
  have hd : (A ++ B ++ C).drop lo = B ++ C := by
    rw [List.append_assoc]; exact drop_append_len A (B ++ C) lo h1
  rw [extract, hd, h2, h1, Nat.add_sub_cancel_left]
  exact take_append_len B C B.length rfl

theorem splice_decomp (A B C : List Int) (lo hi : Nat) (W : List Int) (h1 : lo = A.length)
    (h2 : hi = lo + B.length) : splice (A ++ B ++ C) lo hi W = A ++ W ++ C := by
  have ht : (A ++ B ++ C).take lo = A := by
    rw [List.append_assoc]; exact take_append_len A (B ++ C) lo h1
  have hd : (A ++ B ++ C).drop hi = C :=
    drop_append_len (A ++ B) C hi (by simp [h1, h2])
  rw [splice, ht, hd, List.append_assoc]

theorem rotateE_decomp (A B C : List Int) (lo hi : Nat) (r : Int) (h1 : lo = A.length)
    (h2 : hi = lo + B.length) :
    rotateE (A ++ B ++ C) lo hi r = pure (A ++ rotSeg B r ++ C) := by
  have hc : lo ≤ hi ∧ hi ≤ (A ++ B ++ C).length :=
    ⟨by omega, by simp only [List.length_append]; omega⟩
  rw [rotateE, if_pos hc, extract_decomp A B C lo hi h1 h2, splice_decomp A B C lo hi _ h1 h2]

theorem reverseE_decomp (A B C : List Int) (lo hi : Nat) (h1 : lo = A.length)
    (h2 : hi = lo + B.length) :
    reverseE (A ++ B ++ C) lo hi = pure (A ++ B.reverse ++ C) := by
  have hc : lo ≤ hi ∧ hi ≤ (A ++ B ++ C).length :=
    ⟨by omega, by simp only [List.length_append]; omega⟩
  rw [reverseE, if_pos hc, extract_decomp A B C lo hi h1 h2, splice_decomp A B C lo hi _ h1 h2]

theorem sortWinAscE_decomp (A B : List Int) (lo : Nat) (h1 : lo = A.length) :
    sortWinAscE (A ++ B) lo = pure (A ++ goSort B) := by
  have hd : (A ++ B).drop lo = B := drop_append_len A B lo h1
  have hlen : (A ++ B).length = lo + B.length := by simp [h1]
  rw [sortWinAscE, if_pos (by simp [h1]), extract, hd]
  have : B.take ((A ++ B).length - lo) = B := by
    apply List.take_of_length_le; omega
  rw [this, splice, take_append_len A B lo h1, List.drop_length]
  simp

theorem sortWinDescE_decomp (A B : List Int) (lo : Nat) (h1 : lo = A.length) :
    sortWinDescE (A ++ B) lo = pure (A ++ goSortDesc B) := by
  have hd : (A ++ B).drop lo = B := drop_append_len A B lo h1
  rw [sortWinDescE, if_pos (by simp [h1]), extract, hd]
  have : B.take ((A ++ B).length - lo) = B := by
    apply List.take_of_length_le; simp [h1]
  rw [this, splice, take_append_len A B lo h1, List.drop_length]
  simp

theorem rotSeg_right_append (Y Z : List Int) :
    rotSeg (Y ++ Z) (Z.length : Int) = Z ++ Y := by
  rcases Nat.eq_zero_or_pos (Y ++ Z).length with h0 | hpos
  · simp only [List.length_append] at h0
    have hy : Y = [] := List.length_eq_zero.mp (by omega)
    have hz : Z = [] := List.length_eq_zero.mp (by omega)
    simp [hy, hz, rotSeg]
  · rw [rotSeg, if_neg (by omega)]
    rcases Nat.lt_or_ge Z.length (Y ++ Z).length with hlt | hge
    · have hsh : (((Z.length : Int)) % (((Y ++ Z).length : Nat) : Int)).toNat = Z.length := by
        rw [Int.emod_eq_of_lt (by positivity) (by exact_mod_cast hlt)]
        exact Int.toNat_natCast _
      rw [hsh]
      have hY : (Y ++ Z).length - Z.length = Y.length := by simp
      rw [hY, drop_append_len Y Z _ rfl, take_append_len Y Z _ rfl]
    · have hy : Y = [] := by
        simp only [List.length_append] at hge
        exact List.length_eq_zero.mp (by omega)
      subst hy
      have hsh : (((Z.length : Int)) % ((([] ++ Z : List Int).length : Nat) : Int)).toNat = 0 := by
        simp [Int.emod_self]
      rw [hsh]
      simp

theorem rotSeg_left_append (Y Z : List Int) :
    rotSeg (Y ++ Z) (-(Y.length : Int)) = Z ++ Y := by
  rcases Nat.eq_zero_or_pos (Y ++ Z).length with h0 | hpos
  · simp only [List.length_append] at h0
    have hy : Y = [] := List.length_eq_zero.mp (by omega)
    have hz : Z = [] := List.length_eq_zero.mp (by omega)
    simp [hy, hz, rotSeg]
  · rw [rotSeg, if_neg (by omega)]
    rcases Nat.eq_zero_or_pos Y.length with hy0 | hypos
    · have hy : Y = [] := List.length_eq_zero.mp hy0
      subst hy
      simp
    · have hym : Y.length ≤ (Y ++ Z).length := by simp
      have hmod : (-(Y.length : Int)) % ((Y ++ Z).length : Int) =
          (((Y ++ Z).length - Y.length : Nat) : Int) := by
        have h1 : (-(Y.length : Int)) % ((Y ++ Z).length : Int) =
            (((Y ++ Z).length : Int) - Y.length) % ((Y ++ Z).length : Int) := by
          conv_lhs => rw [show (-(Y.length : Int)) =
            (((Y ++ Z).length : Int) - Y.length) - (Y ++ Z).length by ring]
          rw [Int.sub_emod, Int.emod_self, sub_zero, Int.emod_emod_of_dvd _ dvd_rfl]
        rw [h1, Int.emod_eq_of_lt (by push_cast; omega) (by push_cast; omega)]
        push_cast
        omega
      rw [hmod, Int.toNat_natCast]
      have h2 : (Y ++ Z).length - ((Y ++ Z).length - Y.length) = Y.length := by omega
      rw [h2, drop_append_len Y Z _ rfl, take_append_len Y Z _ rfl]

theorem rotSeg_cons_left1 (a : Int) (Z : List Int) :
    rotSeg (a :: Z) (-1) = Z ++ [a] := by
  have := rotSeg_left_append [a] Z
  simpa using this

theorem rotSeg_cons_left2 (a b : Int) (Z : List Int) :
    rotSeg (a :: b :: Z) (-2) = Z ++ [a, b] := by
  have := rotSeg_left_append [a, b] Z
  simpa using this

theorem rotSeg_perm (l : List Int) (r : Int) : rotSeg l r ~ l := by
  rw [rotSeg]
  split
  · exact List.Perm.refl _
  · calc l.drop (l.length - (r % (l.length : Int)).toNat) ++
        l.take (l.length - (r % (l.length : Int)).toNat)
        ~ l.take (l.length - (r % (l.length : Int)).toNat) ++
          l.drop (l.length - (r % (l.length : Int)).toNat) := List.perm_append_comm
      _ = l := List.take_append_drop _ _

/-- Binary-search specification: with enough fuel and a pure predicate on
the searched range, Go Search returns some r in [i, j] with the predicate
false just below r and true at r (the latter two facts unconditionally,
monotonicity not required). -/
theorem goSearchM_spec (p : Nat → Bool) :
    ∀ (fuel i j : Nat) (f : Nat → SM Bool), i ≤ j →
    (∀ x, i ≤ x → x < j → f x = pure (p x)) → j - i ≤ fuel →
    ∃ r, goSearchM f fuel i j = pure r ∧ i ≤ r ∧ r ≤ j ∧
      (r < j → p r = true) ∧ (i < r → p (r - 1) = false) := by
  intro fuel
  induction fuel with
  | zero =>
    intro i j f hij0 _ hfuel
    refine ⟨i, rfl, le_refl i, by omega, fun h => absurd h (by omega),
      fun h => absurd h (by omega)⟩
  | succ fuel ih =>
    intro i j f hij0 hf hfuel
    rw [goSearchM]
    by_cases hij : i < j
    · rw [if_pos hij]
      have hmid1 : i ≤ (i + j) / 2 := by omega
      have hmid2 : (i + j) / 2 < j := by omega
      rw [hf _ hmid1 hmid2, SM.bind_pure]
      by_cases hp : p ((i + j) / 2)
      · rw [if_pos hp]
        obtain ⟨r, hr, hr1, hr2, hr3, hr4⟩ :=
          ih i ((i + j) / 2) f (by omega) (fun x hx1 hx2 => hf x hx1 (by omega)) (by omega)
        exact ⟨r, hr, hr1, by omega, fun h => by
          rcases Nat.lt_or_ge r ((i + j) / 2) with h2 | h2
          · exact hr3 h2
          · have : r = (i + j) / 2 := by omega
            rw [this]; exact hp, hr4⟩
      · rw [if_neg hp]
        obtain ⟨r, hr, hr1, hr2, hr3, hr4⟩ :=
          ih ((i + j) / 2 + 1) j f (by omega) (fun x hx1 hx2 => hf x (by omega) hx2) (by omega)
        refine ⟨r, hr, by omega, hr2, hr3, fun h => ?_⟩
        rcases Nat.lt_or_ge ((i + j) / 2 + 1) r with h2 | h2
        · exact hr4 h2
        · have : r = (i + j) / 2 + 1 := by omega
          rw [this]
          simpa using (Bool.not_eq_true _).mp hp
    · rw [if_neg hij]
      exact ⟨i, rfl, le_refl i, by omega, fun h => absurd h (by omega),
        fun h => absurd h (by omega)⟩

/-- The characterization of Go Search on a sorted region searched for the
insertion point of x: everything strictly left of the result is at most x,
everything from the result on is strictly greater. -/
theorem searchChar (P : List Int) (x : Int) (hP : List.Sorted (· ≤ ·) P)
    (fuel : Nat) (hfuel : P.length ≤ fuel) (f : Nat → SM Bool)
    (hf' : ∀ i, i < P.length → f i = pure (decide (x < P.getD i 0))) :
    ∃ li, goSearchM f fuel 0 P.length = pure li ∧ li ≤ P.length ∧
      (∀ y ∈ P.take li, y ≤ x) ∧ (∀ y ∈ P.drop li, x < y) := by
  have hsorted : ∀ (i j : Nat) (hi : i < P.length) (hj : j < P.length), i ≤ j →
      P[i] ≤ P[j] := by
    intro i j hi hj hij
    have := hP.rel_get_of_le (a := ⟨i, hi⟩) (b := ⟨j, hj⟩) hij
    simpa using this
  have hgetD : ∀ (i : Nat) (hi : i < P.length), P.getD i 0 = P[i] := by
    intro i hi
    rw [List.getD_eq_getElem?_getD, List.getElem?_eq_getElem hi]
    rfl
  obtain ⟨r, hr, _, hr2, hr3, hr4⟩ :=
    goSearchM_spec (fun i => decide (x < P.getD i 0)) fuel 0 P.length f
      (by omega) (fun y _ hy => hf' y hy) (by omega)
  refine ⟨r, hr, hr2, ?_, ?_⟩
  · intro y hy
    rcases Nat.eq_zero_or_pos r with hr0 | hrpos
    · rw [hr0] at hy; simp at hy
    · have hr1P : r - 1 < P.length := by omega
      have hlast : ¬ (x < P[r - 1]) := by
        have := hr4 hrpos
        rw [hgetD _ hr1P] at this
        simpa using this
      obtain ⟨i, hm, hig⟩ := List.mem_take_iff_getElem.mp hy
      have hiP : i < P.length := by omega
      have hir : i ≤ r - 1 := by omega
      have := hsorted i (r - 1) hiP hr1P hir
      omega
  · intro y hy
    obtain ⟨i, hm, hig⟩ := List.mem_iff_getElem.mp hy
    rw [List.getElem_drop] at hig
    have hiP : r + i < P.length := by
      simp only [List.length_drop] at hm
      omega
    have hrP : r < P.length := by omega
    have hpr : x < P[r] := by
      have := hr3 hrP
      rw [hgetD _ hrP] at this
      simpa using this
    have := hsorted r (r + i) hrP hiP (by omega)
    omega

theorem sortedAsc_append (A B : List Int) (hA : List.Sorted (· ≤ ·) A)
    (hB : List.Sorted (· ≤ ·) B) (hAB : ∀ a ∈ A, ∀ b ∈ B, a ≤ b) :
    List.Sorted (· ≤ ·) (A ++ B) :=
  List.pairwise_append.mpr ⟨hA, hB, hAB⟩

theorem sortedAsc_append_iff (A B : List Int) :
    List.Sorted (· ≤ ·) (A ++ B) ↔
      List.Sorted (· ≤ ·) A ∧ List.Sorted (· ≤ ·) B ∧ ∀ a ∈ A, ∀ b ∈ B, a ≤ b :=
  List.pairwise_append

theorem sortedDesc_reverse_asc (B : List Int) (hB : List.Sorted (fun a b => b ≤ a) B) :
    List.Sorted (· ≤ ·) B.reverse := by
  rw [List.Sorted, List.pairwise_reverse]
  exact hB

theorem perm_move1 (P X T : List Int) (x : Int) :
    P ++ X ++ (x :: T) ~ P ++ (x :: X) ++ T := by
  have h1 : x :: T = [x] ++ T := rfl
  have h2 : x :: X = [x] ++ X := rfl
  rw [h1, h2, ← Multiset.coe_eq_coe]
  simp only [← Multiset.coe_add]
  abel

theorem perm_move2 (P0 X A2 T : List Int) (x a : Int) :
    P0 ++ X ++ (x :: a :: (A2 ++ T)) ~ P0 ++ (a :: A2) ++ (x :: X) ++ T := by
  have h1 : x :: a :: (A2 ++ T) = [x] ++ [a] ++ A2 ++ T := by simp
  have h2 : a :: A2 = [a] ++ A2 := rfl
  have h3 : x :: X = [x] ++ X := rfl
  rw [h1, h2, h3, ← Multiset.coe_eq_coe]
  simp only [← Multiset.coe_add]
  abel

/-- Correctness invariant of the in-place engine's main loop.  The state is
P (still-sorted untouched region), B (descending block of unresolved tail
values), T (settled suffix, sorted, at least every unresolved element). -/
theorem giasLoop_ok : ∀ (c : Nat) (P B T : List Int),
    B.length = c →
    List.Sorted (· ≤ ·) P →
    List.Sorted (fun a b => b ≤ a) B →
    List.Sorted (· ≤ ·) T →
    (∀ y ∈ P, ∀ t ∈ T, y ≤ t) →
    (∀ b ∈ B, ∀ t ∈ T, b ≤ t) →
    ∃ w, XSort.giasLoop c (P ++ B ++ T) P.length (P.length + c) = pure w ∧
      List.Sorted (· ≤ ·) w ∧ w ~ P ++ B ++ T := by
  intro c
  induction c with
  | zero =>
    intro P B T hBlen hP hB hT hPT hBT
    have hBnil : B = [] := List.length_eq_zero.mp hBlen
    subst hBnil
    refine ⟨P ++ [] ++ T, rfl, ?_, List.Perm.refl _⟩
    simpa using sortedAsc_append P T hP hT hPT
  | succ c ih =>
    intro P B T hBlen hP hB hT hPT hBT
    obtain ⟨x, X, rfl⟩ : ∃ x X, B = x :: X := by
      cases B with
      | nil => simp at hBlen
      | cons x X => exact ⟨x, X, rfl⟩
    have hXlen : X.length = c := by simpa using hBlen
    have hshape1 : P ++ (x :: X) ++ T = P ++ x :: (X ++ T) := by simp
    have hgetu : getE (P ++ (x :: X) ++ T) P.length = pure x := by
      rw [hshape1]; exact getE_append_len P (X ++ T) x P.length rfl
    have hf : ∀ i, i < P.length →
        (do
          let a ← getE (P ++ (x :: X) ++ T) P.length
          let b ← getE (P ++ (x :: X) ++ T) i
          pure (decide (a < b)) : SM Bool) = pure (decide (x < P.getD i 0)) := by
      intro i hi
      have h2 : getE (P ++ (x :: X) ++ T) i = pure (P.getD i 0) := by
        rw [hshape1]; exact getE_append_lt P (x :: (X ++ T)) i hi
      rw [hgetu, h2]
      rfl
    obtain ⟨li, hsearch, hli, htake, hdropgt⟩ :=
      searchChar P x hP P.length (le_refl _) _ hf
    rw [XSort.giasLoop, goSearch, hsearch, SM.bind_pure]
    by_cases hliu : li = P.length
    · rw [if_pos hliu]
      by_cases hu0 : P.length = 0
      · rw [if_pos hu0]
        have hPnil : P = [] := List.length_eq_zero.mp hu0
        subst hPnil
        have hrev : reverseE ([] ++ (x :: X) ++ T) 0 (c + 1) =
            pure ([] ++ (x :: X).reverse ++ T) :=
          reverseE_decomp [] (x :: X) T 0 (c + 1) rfl (by simp [hXlen])
        rw [hrev]
        refine ⟨[] ++ (x :: X).reverse ++ T, rfl, ?_, ?_⟩
        · simp only [List.nil_append]
          refine sortedAsc_append _ T (sortedDesc_reverse_asc _ hB) hT ?_
          intro a ha t ht
          exact hBT a (by rw [List.mem_reverse] at ha; exact ha) t ht
        · simp only [List.nil_append]
          exact ((x :: X).reverse_perm).append_right T
      · rw [if_neg hu0]
        -- the candidate is not smaller than its left neighbour: bb = false
        have hlast : P.getD (P.length - 1) 0 ≤ x := by
          have hmem : P.getD (P.length - 1) 0 ∈ P.take li := by
            rw [hliu, List.take_length, List.getD_eq_getElem?_getD,
              List.getElem?_eq_getElem (by omega)]
            exact List.getElem_mem _
          exact htake _ hmem
        have hbb : (do
            let a ← getE (P ++ (x :: X) ++ T) P.length
            let b ← getE (P ++ (x :: X) ++ T) (P.length - 1)
            pure (decide (a < b)) : SM Bool) = pure false := by
          have h2 : getE (P ++ (x :: X) ++ T) (P.length - 1) =
              pure (P.getD (P.length - 1) 0) := by
            rw [hshape1]; exact getE_append_lt P (x :: (X ++ T)) _ (by omega)
          rw [hgetu, h2]
          simp only [SM.bind_pure]
          congr 1
          simpa using hlast
        rw [hbb, SM.bind_pure]
        have hli2 : (if 0 < li then li - 1 else li) = P.length - 1 := by
          rw [if_pos (by omega)]; omega
        rw [if_neg (by simp), hli2]
        have hrot : rotateE (P ++ (x :: X) ++ T) (P.length - 1 + 1)
            (P.length - 1 + (c + 1) + 1) (-1) = pure (P ++ (X ++ [x]) ++ T) := by
          have := rotateE_decomp P (x :: X) T (P.length - 1 + 1) (P.length - 1 + (c + 1) + 1)
            (-1) (by omega) (by simp [hXlen]; omega)
          rw [this, rotSeg_cons_left1]
        rw [hrot, SM.bind_pure]
        have hshape2 : P ++ (X ++ [x]) ++ T = P ++ X ++ (x :: T) := by simp
        have hTx : List.Sorted (· ≤ ·) (x :: T) := by
          rw [List.sorted_cons]
          exact ⟨fun t ht => hBT x (by simp) t ht, hT⟩
        obtain ⟨w, hw, hwsort, hwperm⟩ := ih P X (x :: T) hXlen hP hB.of_cons hTx
          (fun y hy t ht => by
            rcases List.mem_cons.mp ht with rfl | ht
            · exact htake y (by rw [hliu, List.take_length]; exact hy)
            · exact hPT y hy t ht)
          (fun b hb t ht => by
            rcases List.mem_cons.mp ht with rfl | ht
            · exact List.rel_of_sorted_cons hB b hb
            · exact hBT b (by simp [hb]) t ht)
        rw [hshape2]
        have harg : P.length - 1 + 1 = P.length := by omega
        rw [harg]
        have harg2 : P.length + (c + 1) - 1 = P.length + c := by omega
        rw [harg2, hw]
        refine ⟨w, rfl, hwsort, ?_⟩
        calc w ~ P ++ X ++ (x :: T) := hwperm
          _ ~ P ++ (x :: X) ++ T := perm_move1 P X T x
    · rw [if_neg hliu]
      -- the relocation branch: li < P.length
      have hliP : li < P.length := by omega
      obtain ⟨a, A2, hdrop⟩ : ∃ a A2, P.drop li = a :: A2 := by
        cases hd : P.drop li with
        | nil =>
          have := List.length_drop li P
          rw [hd] at this
          simp at this
          omega
        | cons a A2 => exact ⟨a, A2, rfl⟩
      have hPsplit : P = P.take li ++ a :: A2 := by
        rw [← hdrop]
        exact (List.take_append_drop li P).symm
      have hlenP0 : (P.take li).length = li := by
        rw [List.length_take]
        omega
      have hxa : x < a := hdropgt a (by rw [hdrop]; simp)
      have hxA2 : ∀ y ∈ A2, x < y := fun y hy => hdropgt y (by rw [hdrop]; simp [hy])
      have hA2len : P.length = li + 1 + A2.length := by
        conv_lhs => rw [hPsplit]
        simp [hlenP0]
        omega
      -- step 1: rotate the window right of the insertion point
      have hstep1 : rotateE (P ++ (x :: X) ++ T) (li + 1) (P.length + (c + 1))
          (((P.length + (c + 1) : Nat) : Int) - ((P.length : Nat) : Int)) =
          pure ((P.take li ++ [a]) ++ ((x :: X) ++ A2) ++ T) := by
        have hshape : P ++ (x :: X) ++ T = (P.take li ++ [a]) ++ (A2 ++ (x :: X)) ++ T := by
          conv_lhs => rw [hPsplit]
          simp
        rw [hshape]
        have hr : (((P.length + (c + 1) : Nat) : Int) - ((P.length : Nat) : Int)) =
            ((x :: X).length : Int) := by
          simp only [List.length_cons, hXlen]
          push_cast
          ring
        rw [hr]
        have := rotateE_decomp (P.take li ++ [a]) (A2 ++ (x :: X)) T (li + 1)
          (P.length + (c + 1)) ((x :: X).length : Int)
          (by simp [hlenP0]) (by
            simp only [List.length_append, List.length_cons, hlenP0, hXlen]
            omega)
        rw [this, rotSeg_right_append]
      rw [hstep1, SM.bind_pure]
      -- step 2: swap the two elements at the boundary
      have hstep2 : swapE ((P.take li ++ [a]) ++ ((x :: X) ++ A2) ++ T) li (li + 1) =
          pure (P.take li ++ x :: a :: (X ++ A2 ++ T)) := by
        have hshape : (P.take li ++ [a]) ++ ((x :: X) ++ A2) ++ T =
            P.take li ++ a :: x :: (X ++ A2 ++ T) := by simp
        rw [hshape]
        exact swapE_append (P.take li) (X ++ A2 ++ T) a x li hlenP0.symm
      rw [hstep2, SM.bind_pure]
      -- step 3: rotate the candidate block left by two
      have hstep3 : rotateE (P.take li ++ x :: a :: (X ++ A2 ++ T)) li (li + (c + 1) + 1)
          (-2) = pure (P.take li ++ (X ++ [x, a]) ++ (A2 ++ T)) := by
        have hshape : P.take li ++ x :: a :: (X ++ A2 ++ T) =
            P.take li ++ (x :: a :: X) ++ (A2 ++ T) := by simp
        rw [hshape]
        have := rotateE_decomp (P.take li) (x :: a :: X) (A2 ++ T) li (li + (c + 1) + 1)
          (-2) hlenP0.symm (by simp [hXlen]; omega)
        rw [this, rotSeg_cons_left2]
      rw [hstep3, SM.bind_pure]
      -- apply the induction hypothesis
      have hsortP0 : List.Sorted (· ≤ ·) (P.take li) :=
        List.Pairwise.sublist (List.take_sublist li P) hP
      have hsortA2 : List.Sorted (· ≤ ·) (a :: A2) := by
        have : List.Sorted (· ≤ ·) (P.drop li) :=
          List.Pairwise.sublist (List.drop_sublist li P) hP
        rwa [hdrop] at this
      have hP0a : ∀ y ∈ P.take li, ∀ z ∈ a :: A2, y ≤ z := by
        have := (List.pairwise_append.mp (hPsplit ▸ hP)).2.2
        exact this
      have haT : ∀ t ∈ T, a ≤ t := fun t ht => hPT a (by rw [hPsplit]; simp) t ht
      have hA2T : ∀ y ∈ A2, ∀ t ∈ T, y ≤ t := fun y hy t ht =>
        hPT y (by rw [hPsplit]; simp [hy]) t ht
      have hxT : ∀ t ∈ T, x ≤ t := fun t ht => hBT x (by simp) t ht
      have hTnew : List.Sorted (· ≤ ·) (x :: a :: (A2 ++ T)) := by
        rw [List.sorted_cons]
        constructor
        · intro b hb
          rcases List.mem_cons.mp hb with rfl | hb
          · exact le_of_lt hxa
          · rcases List.mem_append.mp hb with hb | hb
            · exact le_of_lt (hxA2 b hb)
            · exact hxT b hb
        · rw [List.sorted_cons]
          constructor
          · intro b hb
            rcases List.mem_append.mp hb with hb | hb
            · exact List.rel_of_sorted_cons hsortA2 b hb
            · exact haT b hb
          · exact sortedAsc_append A2 T hsortA2.of_cons hT hA2T
      obtain ⟨w, hw, hwsort, hwperm⟩ := ih (P.take li) X (x :: a :: (A2 ++ T)) hXlen
        hsortP0 hB.of_cons hTnew
        (fun y hy t ht => by
          rcases List.mem_cons.mp ht with rfl | ht
          · exact htake y hy
          · rcases List.mem_cons.mp ht with rfl | ht
            · exact hP0a y hy t (by simp)
            · rcases List.mem_append.mp ht with ht | ht
              · exact hP0a y hy t (by simp [ht])
              · exact hPT y (hPsplit ▸ (by simp [List.mem_append.mpr (Or.inl hy)] :
                  y ∈ P.take li ++ a :: A2)) t ht)
        (fun b hb t ht => by
          have hbx : b ≤ x := List.rel_of_sorted_cons hB b hb
          rcases List.mem_cons.mp ht with rfl | ht
          · exact hbx
          · rcases List.mem_cons.mp ht with rfl | ht
            · exact le_of_lt (lt_of_le_of_lt hbx hxa)
            · rcases List.mem_append.mp ht with ht | ht
              · exact le_of_lt (lt_of_le_of_lt hbx (hxA2 t ht))
              · exact hBT b (by simp [hb]) t ht)
      have hshape4 : P.take li ++ (X ++ [x, a]) ++ (A2 ++ T) =
          P.take li ++ X ++ (x :: a :: (A2 ++ T)) := by simp
      rw [hlenP0] at hw
      rw [hshape4]
      have harg2 : li + (c + 1) - 1 = li + c := by omega
      rw [harg2, hw]
      refine ⟨w, rfl, hwsort, ?_⟩
      calc w ~ P.take li ++ X ++ (x :: a :: (A2 ++ T)) := hwperm
        _ ~ P.take li ++ (a :: A2) ++ (x :: X) ++ T := perm_move2 (P.take li) X A2 T x a
        _ = P ++ (x :: X) ++ T := by rw [← hPsplit]

theorem U64_val : U64 = 18446744073709551616 := by norm_num [U64]

theorem toInt64_eq (x : Nat) (hx : x < 2 ^ 63) : toInt64 x = (x : Int) := by
  have hU := U64_val
  have hx64 : x % U64 = x := Nat.mod_eq_of_lt (by omega)
  rw [toInt64, hx64, if_pos hx]

theorem usub64_eq (a b : Nat) (ha : a < U64) (hb : b ≤ a) : usub64 a b = a - b := by
  have hU := U64_val
  have hb64 : b % U64 = b := Nat.mod_eq_of_lt (by omega)
  rw [usub64, hb64]
  have h1 : a + U64 - b = U64 + (a - b) := by omega
  rw [h1, Nat.add_mod_left]
  exact Nat.mod_eq_of_lt (by omega)

theorem getE_getD (l : List Int) (i : Nat) (hi : i < l.length) :
    getE l i = pure (l.getD i 0) := by
  rw [getE, dif_pos hi]
  congr 1
  rw [List.getD_eq_getElem?_getD, List.getElem?_eq_getElem hi]
  rfl

/-- Correctness of the in-place engine under its precondition. -/
theorem gias_ok (s : List Int) (k : Nat) (hk : k ≤ s.length) (hn : s.length < 2 ^ 63)
    (hpre : List.Sorted (· ≤ ·) (s.take (s.length - k))) :
    ∃ w, XSort.groupInsertAppendSort s k = pure w ∧
      List.Sorted (· ≤ ·) w ∧ w ~ s := by
  have hU := U64_val
  have hti : toInt64 k = (k : Int) := toInt64_eq k (by omega)
  rw [XSort.groupInsertAppendSort, hti, if_neg (by push_cast; omega)]
  have hsub : usub64 s.length k = s.length - k := usub64_eq _ _ (by omega) hk
  rw [hsub]
  by_cases h0 : s.length - k = 0
  · rw [if_pos h0]
    exact ⟨goSort s, rfl, goSort_sorted s, goSort_perm s⟩
  · rw [if_neg h0]
    have hsplit : s.take (s.length - k) ++ s.drop (s.length - k) = s :=
      List.take_append_drop _ s
    have hlenP : (s.take (s.length - k)).length = s.length - k := by
      rw [List.length_take]; omega
    have hlenD : (s.drop (s.length - k)).length = k := by
      rw [List.length_drop]; omega
    have hsort1 : sortWinDescE s (s.length - k) =
        pure (s.take (s.length - k) ++ goSortDesc (s.drop (s.length - k))) := by
      have h := sortWinDescE_decomp (s.take (s.length - k)) (s.drop (s.length - k))
        (s.length - k) hlenP.symm
      rwa [hsplit] at h
    rw [hsort1, SM.bind_pure]
    have hBlen : (goSortDesc (s.drop (s.length - k))).length = k := by
      rw [goSortDesc_length, hlenD]
    obtain ⟨w, hw, hwsort, hwperm⟩ := giasLoop_ok k (s.take (s.length - k))
      (goSortDesc (s.drop (s.length - k))) [] hBlen hpre
      (goSortDesc_sorted _) List.sorted_nil (by simp) (by simp)
    rw [List.append_nil] at hw
    rw [hlenP] at hw
    have he : s.length - k + k = s.length := by omega
    rw [he] at hw
    rw [hw]
    refine ⟨w, rfl, hwsort, ?_⟩
    calc w ~ s.take (s.length - k) ++ goSortDesc (s.drop (s.length - k)) ++ [] := hwperm
      _ ~ s.take (s.length - k) ++ s.drop (s.length - k) := by
          rw [List.append_nil]
          exact (goSortDesc_perm _).append_left _
      _ = s := hsplit

/-- Correctness of the Appended entry point under its precondition. -/
theorem Appended_ok (s : List Int) (k : Nat) (hk : k ≤ s.length) (hn : s.length < 2 ^ 63)
    (hpre : List.Sorted (· ≤ ·) (s.take (s.length - k))) :
    ∃ w, XSort.Appended s k = pure w ∧ List.Sorted (· ≤ ·) w ∧ w ~ s := by
  rw [XSort.Appended]
  by_cases hk0 : k = 0
  · rw [if_pos hk0]
    refine ⟨s, rfl, ?_, List.Perm.refl s⟩
    have : s.take (s.length - k) = s := by
      rw [hk0]
      simp
    rwa [this] at hpre
  · rw [if_neg hk0]
    by_cases hsel : XSort.shouldUseAppended s.length k
    · rw [if_neg (by simpa using hsel)]
      exact gias_ok s k hk hn hpre
    · rw [if_pos (by simpa using hsel), if_neg (by omega)]
      exact ⟨goSort s, rfl, goSort_sorted s, goSort_perm s⟩

theorem copyFwdE_decomp (A Q C : List Int) (lo c1 : Nat) (hlo : lo = A.length)
    (hQ : c1 ≤ Q.length) :
    copyFwdE (A ++ Q ++ C) (lo + c1) (lo + Q.length) lo =
      pure (A ++ (Q.take c1 ++ Q.take (Q.length - c1)) ++ C) := by
  have hlen : (A ++ Q ++ C).length = lo + Q.length + C.length := by
    simp [hlo]
    omega
  rw [copyFwdE, if_pos (by refine ⟨by omega, by omega, by omega⟩)]
  have hmin : min (lo + Q.length - (lo + c1)) ((A ++ Q ++ C).length - lo) =
      Q.length - c1 := by omega
  rw [hmin]
  have hextract : extract (A ++ Q ++ C) lo (lo + (Q.length - c1)) =
      Q.take (Q.length - c1) := by
    rw [extract]
    have hd : (A ++ Q ++ C).drop lo = Q ++ C := by
      rw [List.append_assoc]
      exact drop_append_len A (Q ++ C) lo hlo
    rw [hd]
    have harg : lo + (Q.length - c1) - lo = Q.length - c1 := by omega
    rw [harg, List.take_append_of_le_length (by omega)]
  rw [hextract]
  have hshape : A ++ Q ++ C = (A ++ Q.take c1) ++ Q.drop c1 ++ C := by
    conv_lhs => rw [← List.take_append_drop c1 Q]
    simp [List.append_assoc]
  rw [hshape]
  have hsp := splice_decomp (A ++ Q.take c1) (Q.drop c1) C (lo + c1)
    (lo + Q.length) (Q.take (Q.length - c1))
    (by simp [hlo, Nat.min_eq_left hQ]) (by simp only [List.length_drop]; omega)
  have harg2 : lo + c1 + (Q.length - c1) = lo + Q.length := by omega
  rw [harg2, hsp]
  simp [List.append_assoc]

theorem sorted_take_le (l : List Int) (hl : List.Sorted (· ≤ ·) l) (c : Nat)
    (hc : c < l.length) : ∀ y ∈ l.take c, y ≤ l.getD c 0 := by
  intro y hy
  obtain ⟨i, hm, hig⟩ := List.mem_take_iff_getElem.mp hy
  have hgetD : l.getD c 0 = l[c] := by
    rw [List.getD_eq_getElem?_getD, List.getElem?_eq_getElem hc]
    rfl
  rw [hgetD, ← hig]
  have := hl.rel_get_of_le (a := ⟨i, by omega⟩) (b := ⟨c, hc⟩) (by simp; omega)
  simpa using this

theorem getD_mem_take_succ (l : List Int) (c : Nat) (hc : c < l.length) :
    l.getD c 0 ∈ l.take (c + 1) := by
  refine List.mem_take_iff_getElem.mpr ⟨c, by omega, ?_⟩
  rw [List.getD_eq_getElem?_getD, List.getElem?_eq_getElem hc]
  rfl

theorem mem_take_mono (l : List Int) (c : Nat) (y : Int) (hy : y ∈ l.take c) :
    y ∈ l.take (c + 1) := by
  obtain ⟨i, hm, hig⟩ := List.mem_take_iff_getElem.mp hy
  exact List.mem_take_iff_getElem.mpr ⟨i, by omega, hig⟩

theorem take_succ_getD (l : List Int) (c : Nat) (hc : c < l.length) :
    l.take (c + 1) = l.take c ++ [l.getD c 0] := by
  rw [List.take_succ]
  congr 1
  rw [List.getD_eq_getElem?_getD, List.getElem?_eq_getElem hc]
  rfl

theorem perm_move3 (P0 P1 Btk T : List Int) (v : Int) :
    P0 ++ Btk ++ (v :: (P1 ++ T)) ~ (P0 ++ P1) ++ (Btk ++ [v]) ++ T := by
  have h1 : v :: (P1 ++ T) = [v] ++ P1 ++ T := by simp
  rw [h1, ← Multiset.coe_eq_coe]
  simp only [← Multiset.coe_add]
  abel

/-- Correctness invariant of the buffered engine's main loop.  P is the
still-sorted untouched region, J a dead window of length equal to the loop
counter, T the settled suffix; the counter-many smallest buffer values are
still to be placed. -/
theorem gwbLoop_ok : ∀ (c : Nat) (P J T Bv : List Int),
    J.length = c → c ≤ Bv.length →
    List.Sorted (· ≤ ·) P →
    List.Sorted (· ≤ ·) Bv →
    List.Sorted (· ≤ ·) T →
    (∀ y ∈ P, ∀ t ∈ T, y ≤ t) →
    (∀ b ∈ Bv.take c, ∀ t ∈ T, b ≤ t) →
    ∃ w, XSort.gwbLoop Bv c (P ++ J ++ T) P.length (P.length + c) = pure w ∧
      List.Sorted (· ≤ ·) w ∧ w ~ P ++ Bv.take c ++ T := by
  intro c
  induction c with
  | zero =>
    intro P J T Bv hJlen _ hP _ hT hPT _
    have hJnil : J = [] := List.length_eq_zero.mp hJlen
    subst hJnil
    refine ⟨P ++ [] ++ T, rfl, ?_, by simp⟩
    simpa using sortedAsc_append P T hP hT hPT
  | succ c ih =>
    intro P J T Bv hJlen hcB hP hBv hT hPT hBvT
    obtain ⟨j0, J1, rfl⟩ : ∃ j0 J1, J = j0 :: J1 := by
      cases J with
      | nil => simp at hJlen
      | cons j0 J1 => exact ⟨j0, J1, rfl⟩
    have hJ1len : J1.length = c := by simpa using hJlen
    have hcWl : c < Bv.length := by omega
    set v := Bv.getD c 0 with hv
    have hgetv : getE Bv c = pure v := getE_getD Bv c hcWl
    rw [XSort.gwbLoop, hgetv, SM.bind_pure]
    have hshape1 : P ++ (j0 :: J1) ++ T = P ++ j0 :: (J1 ++ T) := by simp
    have hset1 : setE (P ++ (j0 :: J1) ++ T) P.length v = pure (P ++ v :: (J1 ++ T)) := by
      rw [hshape1]
      exact setE_append_len P (J1 ++ T) j0 v P.length rfl
    rw [hset1, SM.bind_pure]
    -- the search evaluates purely on the sorted region
    have hgetu : getE (P ++ v :: (J1 ++ T)) P.length = pure v :=
      getE_append_len P (J1 ++ T) v P.length rfl
    have hf : ∀ i, i < P.length →
        (do
          let a ← getE (P ++ v :: (J1 ++ T)) P.length
          let b ← getE (P ++ v :: (J1 ++ T)) i
          pure (decide (a < b)) : SM Bool) = pure (decide (v < P.getD i 0)) := by
      intro i hi
      rw [hgetu, getE_append_lt P (v :: (J1 ++ T)) i hi]
      rfl
    obtain ⟨li, hsearch, hli, htake, hdropgt⟩ :=
      searchChar P v hP P.length (le_refl _) _ hf
    rw [goSearch, hsearch, SM.bind_pure]
    have hPsplit : P.take li ++ P.drop li = P := List.take_append_drop li P
    have hlenP0 : (P.take li).length = li := by rw [List.length_take]; omega
    have hlenP1 : (P.drop li).length = P.length - li := List.length_drop li P
    -- the block copy
    have hQlen : (P.drop li ++ v :: J1).length = (P.length - li) + 1 + c := by
      simp [hlenP1, hJ1len]
      omega
    have hcopy : copyFwdE (P ++ v :: (J1 ++ T)) (li + (c + 1)) (P.length + (c + 1)) li =
        pure (P.take li ++ ((P.drop li ++ v :: J1).take (c + 1) ++ P.drop li) ++ T) := by
      have hshape2 : P.take li ++ (P.drop li ++ v :: J1) ++ T = P ++ v :: (J1 ++ T) := by
        simp only [List.append_assoc, List.cons_append]
        rw [← List.append_assoc, hPsplit]
      rw [← hshape2]
      have := copyFwdE_decomp (P.take li) (P.drop li ++ v :: J1) T li (c + 1)
        hlenP0.symm (by omega)
      have harg : li + (P.drop li ++ v :: J1).length = P.length + (c + 1) := by
        rw [hQlen]; omega
      rw [harg] at this
      rw [this]
      have htk : (P.drop li ++ v :: J1).take ((P.drop li ++ v :: J1).length - (c + 1)) =
          P.drop li := by
        have : (P.drop li ++ v :: J1).length - (c + 1) = (P.drop li).length := by
          rw [hQlen, hlenP1]; omega
        rw [this]
        exact take_append_len _ _ _ rfl
      rw [htk]
    rw [hcopy, SM.bind_pure]
    -- final write of the value at the end of the copied gap
    set K := (P.drop li ++ v :: J1).take (c + 1) with hK
    have hKlen : K.length = c + 1 := by
      rw [hK, List.length_take]
      omega
    obtain ⟨y, hKdrop⟩ : ∃ y, K.drop c = [y] := by
      have : (K.drop c).length = 1 := by rw [List.length_drop, hKlen]; omega
      obtain ⟨y, hy⟩ := List.length_eq_one.mp this
      exact ⟨y, hy⟩
    have hKsplit : K = K.take c ++ [y] := by
      conv_lhs => rw [← List.take_append_drop c K]
      rw [hKdrop]
    have hKtklen : (K.take c).length = c := by
      rw [List.length_take, hKlen]; omega
    have hset2 : setE (P.take li ++ (K ++ P.drop li) ++ T) (li + (c + 1) - 1) v =
        pure (P.take li ++ K.take c ++ (v :: (P.drop li ++ T))) := by
      have hshape3 : P.take li ++ (K ++ P.drop li) ++ T =
          (P.take li ++ K.take c) ++ y :: (P.drop li ++ T) := by
        conv_lhs => rw [hKsplit]
        simp
      rw [hshape3]
      have harg : li + (c + 1) - 1 = (P.take li ++ K.take c).length := by
        simp only [List.length_append, hlenP0, hKtklen]
        omega
      rw [setE_append_len _ _ y v _ harg]
    rw [hset2, SM.bind_pure]
    -- apply the induction hypothesis
    have hsortP0 : List.Sorted (· ≤ ·) (P.take li) :=
      List.Pairwise.sublist (List.take_sublist li P) hP
    have hsortP1 : List.Sorted (· ≤ ·) (P.drop li) :=
      List.Pairwise.sublist (List.drop_sublist li P) hP
    have hP0P1 : ∀ a ∈ P.take li, ∀ b ∈ P.drop li, a ≤ b := by
      have h := hP
      conv at h => rw [← hPsplit]
      exact (List.pairwise_append.mp h).2.2
    have hvT : ∀ t ∈ T, v ≤ t := fun t ht =>
      hBvT v (getD_mem_take_succ Bv c hcWl) t ht
    have hvP1 : ∀ b ∈ P.drop li, v < b := hdropgt
    have hTnew : List.Sorted (· ≤ ·) (v :: (P.drop li ++ T)) := by
      rw [List.sorted_cons]
      constructor
      · intro b hb
        rcases List.mem_append.mp hb with hb | hb
        · exact le_of_lt (hvP1 b hb)
        · exact hvT b hb
      · refine sortedAsc_append _ T hsortP1 hT ?_
        intro a ha t ht
        exact hPT a (by rw [← hPsplit]; exact List.mem_append.mpr (Or.inr ha)) t ht
    obtain ⟨w, hw, hwsort, hwperm⟩ := ih (P.take li) (K.take c) (v :: (P.drop li ++ T)) Bv
      hKtklen (by omega) hsortP0 hBv hTnew
      (fun a ha t ht => by
        rcases List.mem_cons.mp ht with rfl | ht
        · exact htake a ha
        · rcases List.mem_append.mp ht with ht | ht
          · exact hP0P1 a ha t ht
          · refine hPT a ?_ t ht
            rw [← hPsplit]
            exact List.mem_append.mpr (Or.inl ha))
      (fun b hb t ht => by
        have hbv : b ≤ v := sorted_take_le Bv hBv c hcWl b hb
        rcases List.mem_cons.mp ht with rfl | ht
        · exact hbv
        · rcases List.mem_append.mp ht with ht | ht
          · exact le_of_lt (lt_of_le_of_lt hbv (hvP1 t ht))
          · exact hBvT b (mem_take_mono Bv c b hb) t ht)
    rw [hlenP0] at hw
    have hshape4 : P.take li ++ K.take c ++ (v :: (P.drop li ++ T)) =
        P.take li ++ K.take c ++ (v :: (P.drop li ++ T)) := rfl
    have harg2 : li + (c + 1) - 1 = li + c := by omega
    rw [harg2, hw]
    refine ⟨w, rfl, hwsort, ?_⟩
    calc w ~ P.take li ++ Bv.take c ++ (v :: (P.drop li ++ T)) := hwperm
      _ ~ (P.take li ++ P.drop li) ++ (Bv.take c ++ [v]) ++ T :=
          perm_move3 (P.take li) (P.drop li) (Bv.take c) T v
      _ = P ++ Bv.take (c + 1) ++ T := by
          rw [hPsplit, take_succ_getD Bv c hcWl]

theorem copyList_full (dst src : List Int) (h : dst.length = src.length) :
    copyList dst src = src := by
  rw [copyList, h, min_self, List.take_length, ← h, List.drop_length, List.append_nil]

/-- Correctness of the buffered engine under its precondition. -/
theorem gwb_ok (s buf : List Int) (hk : buf.length ≤ s.length)
    (hpre : List.Sorted (· ≤ ·) (s.take (s.length - buf.length))) :
    ∃ w, XSort.groupInsertAppendSortWithBuf s buf = pure w ∧
      List.Sorted (· ≤ ·) w ∧ w ~ s := by
  rw [XSort.groupInsertAppendSortWithBuf, if_neg (by push_cast; omega)]
  by_cases h0 : s.length - buf.length = 0
  · rw [if_pos h0]
    exact ⟨goSort s, rfl, goSort_sorted s, goSort_perm s⟩
  · rw [if_neg h0]
    set k := buf.length with hkdef
    have hsplit : s.take (s.length - k) ++ s.drop (s.length - k) = s :=
      List.take_append_drop _ s
    have hlenP : (s.take (s.length - k)).length = s.length - k := by
      rw [List.length_take]; omega
    have hlenD : (s.drop (s.length - k)).length = k := by
      rw [List.length_drop]; omega
    have hsort1 : sortWinAscE s (s.length - k) =
        pure (s.take (s.length - k) ++ goSort (s.drop (s.length - k))) := by
      have h := sortWinAscE_decomp (s.take (s.length - k)) (s.drop (s.length - k))
        (s.length - k) hlenP.symm
      rwa [hsplit] at h
    rw [hsort1, SM.bind_pure]
    have hglen : (goSort (s.drop (s.length - k))).length = k := by
      rw [goSort_length, hlenD]
    have hex : extract (s.take (s.length - k) ++ goSort (s.drop (s.length - k)))
        (s.length - k) s.length = goSort (s.drop (s.length - k)) := by
      have h := extract_decomp (s.take (s.length - k)) (goSort (s.drop (s.length - k))) []
        (s.length - k) s.length hlenP.symm (by rw [hglen]; omega)
      rwa [List.append_nil] at h
    rw [hex]
    have hbuf1 : copyList buf (goSort (s.drop (s.length - k))) =
        goSort (s.drop (s.length - k)) :=
      copyList_full _ _ (by rw [hglen])
    rw [hbuf1]
    have hshape : s.take (s.length - k) ++ goSort (s.drop (s.length - k)) =
        s.take (s.length - k) ++ goSort (s.drop (s.length - k)) ++ [] := by simp
    obtain ⟨w, hw, hwsort, hwperm⟩ := gwbLoop_ok k (s.take (s.length - k))
      (goSort (s.drop (s.length - k))) [] (goSort (s.drop (s.length - k)))
      hglen (by rw [hglen]) hpre (goSort_sorted _) List.sorted_nil (by simp) (by simp)
    rw [List.append_nil, hlenP] at hw
    have he : s.length - k + k = s.length := by omega
    rw [he] at hw
    rw [hw]
    refine ⟨w, rfl, hwsort, ?_⟩
    calc w ~ s.take (s.length - k) ++ (goSort (s.drop (s.length - k))).take k ++ [] := hwperm
      _ = s.take (s.length - k) ++ goSort (s.drop (s.length - k)) := by
          rw [List.append_nil, List.take_of_length_le hglen.le]
      _ ~ s.take (s.length - k) ++ s.drop (s.length - k) := (goSort_perm _).append_left _
      _ = s := hsplit

/-- Correctness of the AppendedWithBuf entry point under its precondition. -/
theorem AppendedWithBuf_ok (s buf : List Int) (hk : buf.length ≤ s.length)
    (hpre : List.Sorted (· ≤ ·) (s.take (s.length - buf.length))) :
    ∃ w, XSort.AppendedWithBuf s buf = pure w ∧ List.Sorted (· ≤ ·) w ∧ w ~ s := by
  rw [XSort.AppendedWithBuf]
  by_cases hk0 : buf.length = 0
  · rw [if_pos hk0]
    refine ⟨s, rfl, ?_, List.Perm.refl s⟩
    have : s.take (s.length - buf.length) = s := by
      rw [hk0]
      simp
    rwa [this] at hpre
  · rw [if_neg hk0]
    by_cases hsel : XSort.shouldUseAppendedWithBuf s.length buf.length
    · rw [if_neg (by simpa using hsel)]
      exact gwb_ok s buf hk hpre
    · rw [if_pos (by simpa using hsel), if_neg (by omega)]
      exact ⟨goSort s, rfl, goSort_sorted s, goSort_perm s⟩

/-! ## Totality of the engines under the index contract (no sortedness) -/

theorem extract_length (s : List Int) (lo hi : Nat) (h1 : lo ≤ hi) (h2 : hi ≤ s.length) :
    (extract s lo hi).length = hi - lo := by
  rw [extract]
  simp only [List.length_take, List.length_drop]
  omega

theorem splice_length (s : List Int) (lo hi : Nat) (w : List Int) (h1 : lo ≤ hi)
    (h2 : hi ≤ s.length) (hw : w.length = hi - lo) :
    (splice s lo hi w).length = s.length := by
  simp only [splice, List.length_append, List.length_take, List.length_drop, hw]
  omega

theorem rotSeg_length (l : List Int) (r : Int) : (rotSeg l r).length = l.length :=
  (rotSeg_perm l r).length_eq

theorem getE_ok (s : List Int) (i : Nat) (hi : i < s.length) :
    getE s i = pure (s.getD i 0) := getE_getD s i hi

theorem setE_ok (s : List Int) (i : Nat) (v : Int) (hi : i < s.length) :
    ∃ w, setE s i v = pure w ∧ w.length = s.length := by
  rw [setE, if_pos hi]
  exact ⟨s.set i v, rfl, by simp⟩

theorem swapE_ok (s : List Int) (i j : Nat) (hi : i < s.length) (hj : j < s.length) :
    ∃ w, swapE s i j = pure w ∧ w.length = s.length := by
  rw [swapE, getE_ok s i hi, SM.bind_pure, getE_ok s j hj, SM.bind_pure]
  exact ⟨_, rfl, by simp⟩

theorem rotateE_ok (s : List Int) (lo hi : Nat) (r : Int) (h1 : lo ≤ hi)
    (h2 : hi ≤ s.length) :
    ∃ w, rotateE s lo hi r = pure w ∧ w.length = s.length := by
  rw [rotateE, if_pos ⟨h1, h2⟩]
  refine ⟨_, rfl, splice_length s lo hi _ h1 h2 ?_⟩
  rw [rotSeg_length, extract_length s lo hi h1 h2]

theorem reverseE_ok (s : List Int) (lo hi : Nat) (h1 : lo ≤ hi) (h2 : hi ≤ s.length) :
    ∃ w, reverseE s lo hi = pure w ∧ w.length = s.length := by
  rw [reverseE, if_pos ⟨h1, h2⟩]
  refine ⟨_, rfl, splice_length s lo hi _ h1 h2 ?_⟩
  rw [List.length_reverse, extract_length s lo hi h1 h2]

theorem copyFwdE_ok (s : List Int) (dstLo dstHi srcLo : Nat) (h1 : dstLo ≤ dstHi)
    (h2 : dstHi ≤ s.length) (h3 : srcLo ≤ s.length) :
    ∃ w, copyFwdE s dstLo dstHi srcLo = pure w ∧ w.length = s.length := by
  rw [copyFwdE, if_pos ⟨h1, h2, h3⟩]
  refine ⟨_, rfl, splice_length s dstLo _ _ (by omega) (by omega) ?_⟩
  rw [extract_length s srcLo _ (by omega) (by omega)]
  omega

theorem sortWinAscE_ok (s : List Int) (lo : Nat) (h : lo ≤ s.length) :
    ∃ w, sortWinAscE s lo = pure w ∧ w.length = s.length := by
  rw [sortWinAscE, if_pos h]
  refine ⟨_, rfl, splice_length s lo _ _ h (le_refl _) ?_⟩
  rw [goSort_length, extract_length s lo _ h (le_refl _)]

theorem sortWinDescE_ok (s : List Int) (lo : Nat) (h : lo ≤ s.length) :
    ∃ w, sortWinDescE s lo = pure w ∧ w.length = s.length := by
  rw [sortWinDescE, if_pos h]
  refine ⟨_, rfl, splice_length s lo _ _ h (le_refl _) ?_⟩
  rw [goSortDesc_length, extract_length s lo _ h (le_refl _)]

/-- Totality of the in-place loop: with the windows inside the sequence,
every indexed access of every iteration is in range, whatever the element
values — the instrumented out-of-range branch is never taken. -/
theorem giasLoop_bounds : ∀ (c : Nat) (s : List Int) (u : Nat),
    u + c ≤ s.length →
    ∃ w, XSort.giasLoop c s u (u + c) = pure w ∧ w.length = s.length := by
  intro c
  induction c with
  | zero => exact fun s u _ => ⟨s, rfl, rfl⟩
  | succ c ih =>
    intro s u hb
    have hu : u < s.length := by omega
    have hf : ∀ i, 0 ≤ i → i < u →
        (fun i => do
          let a ← getE s u
          let b ← getE s i
          pure (decide (a < b))) i =
        pure ((fun i => decide (s.getD u 0 < s.getD i 0)) i) := by
      intro i _ hi
      simp only
      rw [getE_ok s u hu, SM.bind_pure, getE_ok s i (by omega), SM.bind_pure]
    obtain ⟨li, hsearch, hli0, hli, hptrue, hpfalse⟩ :=
      goSearchM_spec (fun i => decide (s.getD u 0 < s.getD i 0)) u 0 u _
        (by omega) hf (by omega)
    rw [XSort.giasLoop, goSearch, hsearch, SM.bind_pure]
    by_cases hliu : li = u
    · rw [if_pos hliu]
      by_cases hu0 : u = 0
      · rw [if_pos hu0]
        obtain ⟨w, hw, hwl⟩ := reverseE_ok s 0 (c + 1) (by omega) (by omega)
        exact ⟨w, hw, hwl⟩
      · rw [if_neg hu0]
        have hbb : (do
            let a ← getE s u
            let b ← getE s (u - 1)
            pure (decide (a < b)) : SM Bool) = pure false := by
          rw [getE_ok s u hu, SM.bind_pure, getE_ok s (u - 1) (by omega), SM.bind_pure]
          have := hpfalse (by omega)
          simp only at this
          rw [hliu] at this
          exact congrArg pure this
        rw [hbb, SM.bind_pure, if_neg (by simp)]
        have hli2 : (if 0 < li then li - 1 else li) = u - 1 := by
          rw [if_pos (by omega)]; omega
        rw [hli2]
        obtain ⟨s1, hs1, hs1l⟩ := rotateE_ok s (u - 1 + 1) (u - 1 + (c + 1) + 1) (-1)
          (by omega) (by omega)
        rw [hs1, SM.bind_pure]
        have harg : u - 1 + 1 = u := by omega
        rw [harg]
        have harg2 : u + (c + 1) - 1 = u + c := by omega
        rw [harg2]
        obtain ⟨w, hw, hwl⟩ := ih s1 u (by omega)
        exact ⟨w, hw, by omega⟩
    · rw [if_neg hliu]
      have hliu' : li < u := by omega
      obtain ⟨s1, hs1, hs1l⟩ := rotateE_ok s (li + 1) (u + (c + 1))
        (((u + (c + 1) : Nat) : Int) - ((u : Nat) : Int)) (by omega) (by omega)
      rw [hs1, SM.bind_pure]
      obtain ⟨s2, hs2, hs2l⟩ := swapE_ok s1 li (li + 1) (by omega) (by omega)
      rw [hs2, SM.bind_pure]
      obtain ⟨s3, hs3, hs3l⟩ := rotateE_ok s2 li (li + (c + 1) + 1) (-2)
        (by omega) (by omega)
      rw [hs3, SM.bind_pure]
      have harg2 : li + (c + 1) - 1 = li + c := by omega
      rw [harg2]
      obtain ⟨w, hw, hwl⟩ := ih s3 li (by omega)
      exact ⟨w, hw, by omega⟩

/-- Totality of the buffered loop: every indexed access of every iteration,
both into the sequence and into the scratch buffer, is in range whatever
the element values. -/
theorem gwbLoop_bounds : ∀ (c : Nat) (s buf : List Int) (u : Nat),
    u + c ≤ s.length → c ≤ buf.length →
    ∃ w, XSort.gwbLoop buf c s u (u + c) = pure w ∧ w.length = s.length := by
  intro c
  induction c with
  | zero => exact fun s buf u _ _ => ⟨s, rfl, rfl⟩
  | succ c ih =>
    intro s buf u hb hc
    have hu : u < s.length := by omega
    rw [XSort.gwbLoop, getE_ok buf c (by omega), SM.bind_pure]
    obtain ⟨s1, hs1, hs1l⟩ := setE_ok s u (buf.getD c 0) hu
    rw [hs1, SM.bind_pure]
    have hf : ∀ i, 0 ≤ i → i < u →
        (fun i => do
          let a ← getE s1 u
          let b ← getE s1 i
          pure (decide (a < b))) i =
        pure ((fun i => decide (s1.getD u 0 < s1.getD i 0)) i) := by
      intro i _ hi
      simp only
      rw [getE_ok s1 u (by omega), SM.bind_pure, getE_ok s1 i (by omega), SM.bind_pure]
    obtain ⟨li, hsearch, hli0, hli, _, _⟩ :=
      goSearchM_spec (fun i => decide (s1.getD u 0 < s1.getD i 0)) u 0 u _
        (by omega) hf (by omega)
    rw [goSearch, hsearch, SM.bind_pure]
    obtain ⟨s2, hs2, hs2l⟩ := copyFwdE_ok s1 (li + (c + 1)) (u + (c + 1)) li
      (by omega) (by omega) (by omega)
    rw [hs2, SM.bind_pure]
    obtain ⟨s3, hs3, hs3l⟩ := setE_ok s2 (li + (c + 1) - 1) (buf.getD c 0) (by omega)
    rw [hs3, SM.bind_pure]
    have harg2 : li + (c + 1) - 1 = li + c := by omega
    rw [harg2]
    obtain ⟨w, hw, hwl⟩ := ih s3 buf li (by omega) (by omega)
    exact ⟨w, hw, by omega⟩

theorem gias_bounds (s : List Int) (k : Nat) (hk : k ≤ s.length) (hn : s.length < 2 ^ 63) :
    ∃ w, XSort.groupInsertAppendSort s k = pure w ∧ w.length = s.length := by
  have hU := U64_val
  have hti : toInt64 k = (k : Int) := toInt64_eq k (by omega)
  rw [XSort.groupInsertAppendSort, hti, if_neg (by push_cast; omega)]
  have hsub : usub64 s.length k = s.length - k := usub64_eq _ _ (by omega) hk
  rw [hsub]
  by_cases h0 : s.length - k = 0
  · rw [if_pos h0]
    exact ⟨goSort s, rfl, goSort_length s⟩
  · rw [if_neg h0]
    obtain ⟨s1, hs1, hs1l⟩ := sortWinDescE_ok s (s.length - k) (by omega)
    rw [hs1, SM.bind_pure]
    obtain ⟨w, hw, hwl⟩ := giasLoop_bounds k s1 (s.length - k) (by omega)
    have he : s.length - k + k = s.length := by omega
    rw [he] at hw
    exact ⟨w, hw, by omega⟩

theorem gwb_bounds (s buf : List Int) (hk : buf.length ≤ s.length) :
    ∃ w, XSort.groupInsertAppendSortWithBuf s buf = pure w ∧ w.length = s.length := by
  rw [XSort.groupInsertAppendSortWithBuf, if_neg (by push_cast; omega)]
  by_cases h0 : s.length - buf.length = 0
  · rw [if_pos h0]
    exact ⟨goSort s, rfl, goSort_length s⟩
  · rw [if_neg h0]
    obtain ⟨s1, hs1, hs1l⟩ := sortWinAscE_ok s (s.length - buf.length) (by omega)
    rw [hs1, SM.bind_pure]
    have hblen : (copyList buf (extract s1 (s.length - buf.length) s.length)).length =
        buf.length := by
      rw [copyList]
      simp only [List.length_append, List.length_take, List.length_drop]
      omega
    obtain ⟨w, hw, hwl⟩ := gwbLoop_bounds buf.length s1
      (copyList buf (extract s1 (s.length - buf.length) s.length))
      (s.length - buf.length) (by omega) (by rw [hblen])
    have he : s.length - buf.length + buf.length = s.length := by omega
    rw [he] at hw
    exact ⟨w, hw, by omega⟩

theorem Appended_total (s : List Int) (k : Nat) (hk : k ≤ s.length)
    (hn : s.length < 2 ^ 63) : ∃ w, XSort.Appended s k = pure w := by
  rw [XSort.Appended]
  by_cases hk0 : k = 0
  · rw [if_pos hk0]
    exact ⟨s, rfl⟩
  · rw [if_neg hk0]
    by_cases hsel : XSort.shouldUseAppended s.length k
    · rw [if_neg (by simpa using hsel)]
      obtain ⟨w, hw, _⟩ := gias_bounds s k hk hn
      exact ⟨w, hw⟩
    · rw [if_pos (by simpa using hsel), if_neg (by omega)]
      exact ⟨goSort s, rfl⟩

theorem AppendedWithBuf_total (s buf : List Int) (hk : buf.length ≤ s.length) :
    ∃ w, XSort.AppendedWithBuf s buf = pure w := by
  rw [XSort.AppendedWithBuf]
  by_cases hk0 : buf.length = 0
  · rw [if_pos hk0]
    exact ⟨s, rfl⟩
  · rw [if_neg hk0]
    by_cases hsel : XSort.shouldUseAppendedWithBuf s.length buf.length
    · rw [if_neg (by simpa using hsel)]
      obtain ⟨w, hw, _⟩ := gwb_bounds s buf hk
      exact ⟨w, hw⟩
    · rw [if_pos (by simpa using hsel), if_neg (by omega)]
      exact ⟨goSort s, rfl⟩

theorem Appended_err (s : List Int) (k : Nat) (hk : k > s.length)
    (hn : s.length < 2 ^ 63) (hku : k < U64) :
    ∃ e, XSort.Appended s k = Except.error e ∧ errState e = some s := by
  have hU := U64_val
  have hk0 : k ≠ 0 := by omega
  rw [XSort.Appended, if_neg hk0]
  by_cases hsel : XSort.shouldUseAppended s.length k
  · rw [if_neg (by simpa using hsel)]
    rw [XSort.groupInsertAppendSort]
    by_cases hbig : k < 2 ^ 63
    · rw [toInt64_eq k hbig, if_pos (by push_cast; omega)]
      exact ⟨SErr.tailTooLong s, rfl, rfl⟩
    · have hti : toInt64 k = (k : Int) - ((U64 : Nat) : Int) := by
        rw [toInt64, Nat.mod_eq_of_lt (by omega), if_neg (by omega)]
      rw [hti, if_neg (by push_cast; omega)]
      have hsub : usub64 s.length k = s.length + U64 - k := by
        rw [usub64, Nat.mod_eq_of_lt (show k < U64 by omega)]
        exact Nat.mod_eq_of_lt (by omega)
      rw [hsub, if_neg (by omega)]
      have hthrow : sortWinDescE s (s.length + U64 - k) = throw (.oob s) := by
        rw [sortWinDescE, if_neg (by omega)]
      rw [hthrow, SM.bind_throw]
      exact ⟨SErr.oob s, rfl, rfl⟩
  · rw [if_pos (by simpa using hsel), if_pos hk]
    exact ⟨SErr.tailTooLong s, rfl, rfl⟩

theorem AppendedWithBuf_err (s buf : List Int) (hk : buf.length > s.length) :
    ∃ e, XSort.AppendedWithBuf s buf = Except.error e ∧ errState e = some s := by
  have hk0 : buf.length ≠ 0 := by omega
  rw [XSort.AppendedWithBuf, if_neg hk0]
  by_cases hsel : XSort.shouldUseAppendedWithBuf s.length buf.length
  · rw [if_neg (by simpa using hsel)]
    rw [XSort.groupInsertAppendSortWithBuf, if_pos (by push_cast; omega)]
    exact ⟨SErr.tailTooLong s, rfl, rfl⟩
  · rw [if_pos (by simpa using hsel), if_pos hk]
    exact ⟨SErr.tailTooLong s, rfl, rfl⟩

/-! ## Heuristic selectors: agreement with the spec formulas, monotonicity -/

theorem selectors_exact (n k : Nat) (hk : k < 2 ^ 32) (hn : n < 2 ^ 61) :
    XSort.shouldUseAppended n k = specShouldUseInPlace n k ∧
    XSort.shouldUseAppendedWithBuf n k = specShouldUseBuffered n k := by
  have hU := U64_val
  have hk4 : (k * 4) % U64 = k * 4 := Nat.mod_eq_of_lt (by omega)
  have hk3 : (k * 3) % U64 = k * 3 := Nat.mod_eq_of_lt (by omega)
  have hk2 : (k * 2) % U64 = k * 2 := Nat.mod_eq_of_lt (by omega)
  have hk5 : (k * 5) % U64 = k * 5 := Nat.mod_eq_of_lt (by omega)
  have hn3 : (n * 3) % U64 = n * 3 := Nat.mod_eq_of_lt (by omega)
  have hkk : (k * k) % U64 = k * k := by
    have h1 : k ≤ 4294967295 := by omega
    have h2 : k * k ≤ 4294967295 * 4294967295 := Nat.mul_le_mul h1 h1
    exact Nat.mod_eq_of_lt (by omega)
  constructor
  · rw [XSort.shouldUseAppended, specShouldUseInPlace]
    split
    · rw [hk4]
      exact decide_eq_decide.mpr (by omega)
    · rw [hkk]
  · rw [XSort.shouldUseAppendedWithBuf, specShouldUseBuffered]
    split
    · rfl
    · split
      · rw [hk3]
        exact decide_eq_decide.mpr (by omega)
      · split
        · rw [hk2]
          exact decide_eq_decide.mpr (by omega)
        · rw [hk5, hn3]
          exact decide_eq_decide.mpr (by omega)

theorem selectors_mono (n k k' : Nat) (hlt : k < k') (hk' : k' < 2 ^ 32) :
    (XSort.shouldUseAppended n k = false → XSort.shouldUseAppended n k' = false) ∧
    (XSort.shouldUseAppendedWithBuf n k = false →
      XSort.shouldUseAppendedWithBuf n k' = false) := by
  have hU := U64_val
  have m4 : (k * 4) % U64 = k * 4 := Nat.mod_eq_of_lt (by omega)
  have m4' : (k' * 4) % U64 = k' * 4 := Nat.mod_eq_of_lt (by omega)
  have m3 : (k * 3) % U64 = k * 3 := Nat.mod_eq_of_lt (by omega)
  have m3' : (k' * 3) % U64 = k' * 3 := Nat.mod_eq_of_lt (by omega)
  have m2 : (k * 2) % U64 = k * 2 := Nat.mod_eq_of_lt (by omega)
  have m2' : (k' * 2) % U64 = k' * 2 := Nat.mod_eq_of_lt (by omega)
  have m5 : (k * 5) % U64 = k * 5 := Nat.mod_eq_of_lt (by omega)
  have m5' : (k' * 5) % U64 = k' * 5 := Nat.mod_eq_of_lt (by omega)
  have hb1 : k ≤ 4294967295 := by omega
  have hb2 : k' ≤ 4294967295 := by omega
  have mkk : (k * k) % U64 = k * k :=
    Nat.mod_eq_of_lt (by have := Nat.mul_le_mul hb1 hb1; omega)
  have mkk' : (k' * k') % U64 = k' * k' :=
    Nat.mod_eq_of_lt (by have := Nat.mul_le_mul hb2 hb2; omega)
  have hmul : k * k ≤ k' * k' := Nat.mul_le_mul (le_of_lt hlt) (le_of_lt hlt)
  have hdiv : k * k / 64 ≤ k' * k' / 64 := Nat.div_le_div_right hmul
  constructor
  · rw [XSort.shouldUseAppended, XSort.shouldUseAppended]
    by_cases h5 : n < 512
    · rw [if_pos h5, if_pos h5, m4, m4']
      intro h
      have := of_decide_eq_false h
      exact decide_eq_false (by omega)
    · rw [if_neg h5, if_neg h5, mkk, mkk']
      intro h
      have := of_decide_eq_false h
      exact decide_eq_false (by omega)
  · rw [XSort.shouldUseAppendedWithBuf, XSort.shouldUseAppendedWithBuf]
    by_cases h10 : n < 10
    · rw [if_pos h10, if_pos h10]
      exact fun h => h
    · rw [if_neg h10, if_neg h10]
      by_cases h64 : n < 64
      · rw [if_pos h64, if_pos h64, m3, m3']
        intro h
        have := of_decide_eq_false h
        exact decide_eq_false (by omega)
      · rw [if_neg h64, if_neg h64]
        by_cases h256 : n < 256
        · rw [if_pos h256, if_pos h256, m2, m2']
          intro h
          have := of_decide_eq_false h
          exact decide_eq_false (by omega)
        · rw [if_neg h256, if_neg h256, m5, m5']
          intro h
          have := of_decide_eq_false h
          exact decide_eq_false (by omega)

/-! ## Boundary behavior and buffer blindness -/

theorem Appended_zero (s : List Int) : XSort.Appended s 0 = pure s := by
  rw [XSort.Appended, if_pos rfl]

theorem AppendedWithBuf_nilbuf (s : List Int) : XSort.AppendedWithBuf s [] = pure s := rfl

theorem Appended_full (s : List Int) (hn : s.length < 2 ^ 63) :
    XSort.Appended s s.length = pure (goSort s) := by
  have hU := U64_val
  rw [XSort.Appended]
  by_cases h0 : s.length = 0
  · rw [if_pos h0]
    have hnil : s = [] := List.length_eq_zero.mp h0
    rw [hnil]
    rfl
  · rw [if_neg h0]
    by_cases hsel : XSort.shouldUseAppended s.length s.length
    · rw [if_neg (by simpa using hsel)]
      rw [XSort.groupInsertAppendSort, toInt64_eq _ (by omega),
        if_neg (by push_cast; omega)]
      have hsub : usub64 s.length s.length = 0 := by
        rw [usub64_eq _ _ (by omega) (le_refl _)]
        omega
      rw [hsub, if_pos rfl]
    · rw [if_pos (by simpa using hsel), if_neg (by omega)]

theorem gwb_full (s buf : List Int) (h : buf.length = s.length) :
    XSort.groupInsertAppendSortWithBuf s buf = pure (goSort s) := by
  rw [XSort.groupInsertAppendSortWithBuf, if_neg (by push_cast; omega), h,
    if_pos (by omega)]

theorem AppendedWithBuf_full (s buf : List Int) (h : buf.length = s.length) :
    XSort.AppendedWithBuf s buf = pure (goSort s) := by
  rw [XSort.AppendedWithBuf]
  by_cases h0 : buf.length = 0
  · rw [if_pos h0]
    have hnil : s = [] := List.length_eq_zero.mp (by omega)
    rw [hnil]
    rfl
  · rw [if_neg h0]
    by_cases hsel : XSort.shouldUseAppendedWithBuf s.length buf.length
    · rw [if_neg (by simpa using hsel)]
      exact gwb_full s buf h
    · rw [if_pos (by simpa using hsel), if_neg (by omega)]

theorem gwb_blind (s b1 b2 : List Int) (h : b1.length = b2.length) :
    XSort.groupInsertAppendSortWithBuf s b1 = XSort.groupInsertAppendSortWithBuf s b2 := by
  rw [XSort.groupInsertAppendSortWithBuf, XSort.groupInsertAppendSortWithBuf, h]
  by_cases hg : (b2.length : Int) > (s.length : Int)
  · rw [if_pos hg, if_pos hg]
  · rw [if_neg hg, if_neg hg]
    by_cases h0 : s.length - b2.length = 0
    · rw [if_pos h0, if_pos h0]
    · rw [if_neg h0, if_neg h0]
      obtain ⟨s1, hs1, hs1l⟩ := sortWinAscE_ok s (s.length - b2.length) (by omega)
      rw [hs1, SM.bind_pure, SM.bind_pure]
      have hex : (extract s1 (s.length - b2.length) s.length).length = b2.length := by
        rw [extract_length s1 _ _ (by omega) (by omega)]
        omega
      rw [copyList_full b1 _ (by omega), copyList_full b2 _ (by omega)]

theorem AppendedWithBuf_blind (s b1 b2 : List Int) (h : b1.length = b2.length) :
    XSort.AppendedWithBuf s b1 = XSort.AppendedWithBuf s b2 := by
  rw [XSort.AppendedWithBuf, XSort.AppendedWithBuf, h, gwb_blind s b1 b2 h]

/-! ## Heap-merge engine: structural invariants of the main pass -/

theorem heapPopE_ok (s : List Int) (splitIdx lh : Nat) (h1 : 1 ≤ lh)
    (h2 : splitIdx + lh ≤ s.length) :
    ∃ v s1, Hpkg.heapPopE s splitIdx lh = pure (v, s1) ∧ s1.length = s.length := by
  rw [Hpkg.heapPopE]
  rw [if_pos h2]
  have hlen : (extract s splitIdx (splitIdx + lh)).length = lh := by
    rw [extract_length s _ _ (by omega) h2]
    omega
  cases hex : extract s splitIdx (splitIdx + lh) with
  | nil =>
    rw [hex] at hlen
    simp at hlen
    omega
  | cons b bs =>
    refine ⟨b, _, rfl, ?_⟩
    refine splice_length s _ _ _ (by omega) h2 ?_
    have hc : (b :: bs).length = lh := by rw [← hex, hlen]
    simp only [List.length_cons] at hc
    simp only [List.length_append, List.length_cons, List.length_nil]
    omega

theorem heapPushE_ok (s : List Int) (splitIdx lh : Nat) (v : Int)
    (h : splitIdx + lh + 1 ≤ s.length) :
    ∃ s1, Hpkg.heapPushE s splitIdx lh v = pure s1 ∧ s1.length = s.length := by
  rw [Hpkg.heapPushE, if_pos h]
  refine ⟨_, rfl, splice_length s _ _ _ (by omega) h ?_⟩
  rw [List.orderedInsert_length, extract_length s _ _ (by omega) (by omega)]
  omega


theorem lessE_ok (s : List Int) (i j : Nat) (hi : i < s.length) (hj : j < s.length) :
    Hpkg.lessE s i j = pure (decide (s.getD i 0 < s.getD j 0)) := by
  rw [Hpkg.lessE, getE_ok s i hi, SM.bind_pure, getE_ok s j hj, SM.bind_pure]

theorem condLessE_ok (g : Bool) (s : List Int) (i j : Nat)
    (hi : g = true → i < s.length) (hj : j < s.length) :
    ∃ b, Hpkg.condLessE g s i j = pure b ∧
      b = (g && decide (s.getD i 0 < s.getD j 0)) := by
  cases g with
  | false => exact ⟨false, rfl, rfl⟩
  | true =>
    rw [Hpkg.condLessE, if_pos rfl, lessE_ok s i j (hi rfl) hj]
    exact ⟨_, rfl, by simp⟩

theorem chooseHeapE_ok (afh afr : Bool) (s : List Int) (i j : Nat)
    (hi : afh = true → i < s.length) (hj : afr = true → j < s.length) :
    ∃ b, Hpkg.chooseHeapE afh afr s i j = pure b ∧
      (b = true → afh = true) ∧ (b = false → afh = false ∨ afr = true) := by
  cases afh with
  | false => exact ⟨false, rfl, by simp, fun _ => Or.inl rfl⟩
  | true =>
    cases afr with
    | false =>
      rw [Hpkg.chooseHeapE, if_pos rfl, if_neg (by simp)]
      exact ⟨true, rfl, fun _ => rfl, by simp⟩
    | true =>
      rw [Hpkg.chooseHeapE, if_pos rfl, if_pos rfl, lessE_ok s i j (hi rfl) (hj rfl)]
      exact ⟨_, rfl, fun _ => rfl, fun _ => Or.inr rfl⟩

theorem heapLoop_struct (splitIdx n : Nat) : ∀ (c : Nat) (s : List Int) (idx ri lh : Nat)
    (hr hh : Bool),
    n = s.length → idx + c = splitIdx → ri = splitIdx + lh → ri ≤ n → splitIdx < n →
    (hr = true ↔ ri < n) → (hh = true ↔ 0 < lh) →
    ∃ s' ri' lh' hr' hh', Hpkg.heapLoop splitIdx n c s idx ri lh hr hh =
      pure (s', ri', lh', hr', hh') ∧ s'.length = s.length ∧ ri' = splitIdx + lh' ∧
      ri' ≤ n ∧ (hr' = true ↔ ri' < n) ∧ (hh' = true ↔ 0 < lh') := by
  intro c
  induction c with
  | zero =>
    intro s idx ri lh hr hh hn hidx hri hrin hsn hhr hhh
    exact ⟨s, ri, lh, hr, hh, rfl, rfl, hri, hrin, hhr, hhh⟩
  | succ c ih =>
    intro s idx ri lh hr hh hn hidx hri hrin hsn hhr hhh
    have hidxn : idx < s.length := by omega
    have hspl : splitIdx < s.length := by omega
    rw [Hpkg.heapLoop]
    have hbreak : ¬ (¬ hr = true ∧ ¬ hh = true) := by
      intro hcontr
      obtain ⟨h1, h2⟩ := hcontr
      have hlh0 : lh = 0 := by
        rcases Nat.eq_zero_or_pos lh with h | h
        · exact h
        · exact absurd (hhh.mpr h) h2
      have : ri < n := by omega
      exact h1 (hhr.mpr this)
    rw [if_neg hbreak]
    obtain ⟨aval, haval, havaldef⟩ := condLessE_ok hh s splitIdx idx
      (fun _ => hspl) hidxn
    have havalh : aval = true → 0 < lh := by
      intro h
      rw [havaldef] at h
      exact hhh.mp (Bool.and_elim_left h)
    rw [haval, SM.bind_pure]
    obtain ⟨bval, hbval, hbvaldef⟩ := condLessE_ok hr s ri idx
      (fun h => by have := hhr.mp h; omega) hidxn
    have hbvalh : bval = true → ri < n := by
      intro h
      rw [hbvaldef] at h
      exact hhr.mp (Bool.and_elim_left h)
    rw [hbval, SM.bind_pure]
    by_cases hcont : ¬ bval = true ∧ ¬ aval = true
    · rw [if_pos hcont]
      exact ih s (idx + 1) ri lh hr hh hn (by omega) hri hrin hsn hhr hhh
    · rw [if_neg hcont]
      rw [getE_ok s idx hidxn, SM.bind_pure]
      obtain ⟨cval, hcval, hcT, hcF⟩ := chooseHeapE_ok aval bval s splitIdx ri
        (fun _ => hspl) (fun h => by have := hbvalh h; omega)
      rw [hcval, SM.bind_pure]
      cases cval with
      | true =>
        rw [if_pos rfl]
        have hlh1 : 1 ≤ lh := havalh (hcT rfl)
        obtain ⟨v, s1, hpop, hs1l⟩ := heapPopE_ok s splitIdx lh hlh1 (by omega)
        rw [hpop, SM.bind_pure]
        obtain ⟨s2, hset, hs2l⟩ := setE_ok s1 idx v (by omega)
        rw [hset, SM.bind_pure]
        cases bval with
        | false =>
          rw [if_pos (by simp)]
          obtain ⟨s3, hset3, hs3l⟩ := setE_ok s2 (ri - 1) (s.getD idx 0) (by omega)
          rw [hset3, SM.bind_pure]
          obtain ⟨s', ri', lh', hr', hh', hrec, hl, h2, h3, h4, h5⟩ :=
            ih s3 (idx + 1) (ri - 1) (lh - 1) true (decide (lh - 1 > 0))
              (by omega) (by omega) (by omega) (by omega) hsn
              (by simp; omega) (by simp)
          exact ⟨s', ri', lh', hr', hh', hrec, by omega, h2, h3, h4, h5⟩
        | true =>
          rw [if_neg (by simp)]
          obtain ⟨s3, hpush, hs3l⟩ := heapPushE_ok s2 splitIdx (lh - 1) (s.getD idx 0)
            (by omega)
          rw [hpush, SM.bind_pure]
          obtain ⟨s', ri', lh', hr', hh', hrec, hl, h2, h3, h4, h5⟩ :=
            ih s3 (idx + 1) ri (lh - 1 + 1) hr true
              (by omega) (by omega) (by omega) (by omega) hsn
              hhr (by simp)
          exact ⟨s', ri', lh', hr', hh', hrec, by omega, h2, h3, h4, h5⟩
      | false =>
        rw [if_neg (by simp)]
        have hbvalT : bval = true := by
          rcases hcF rfl with h | h
          · cases hb : bval with
            | false => exact absurd ⟨by simp [hb], by simp [h]⟩ hcont
            | true => rfl
          · exact h
        have hrilt : ri < n := hbvalh hbvalT
        obtain ⟨dval, hdval, hdvaldef⟩ := condLessE_ok (decide (ri + 1 < n)) s (ri + 1) idx
          (fun h => by have := of_decide_eq_true h; omega) hidxn
        rw [hdval, SM.bind_pure]
        rw [getE_ok s ri (by omega), SM.bind_pure]
        obtain ⟨s2, hset, hs2l⟩ := setE_ok s idx (s.getD ri 0) (by omega)
        rw [hset, SM.bind_pure]
        cases dval with
        | false =>
          rw [if_pos (by simp)]
          obtain ⟨s3, hset3, hs3l⟩ := setE_ok s2 (ri + 1 - 1) (s.getD idx 0) (by omega)
          rw [hset3, SM.bind_pure]
          obtain ⟨s', ri', lh', hr', hh', hrec, hl, h2, h3, h4, h5⟩ :=
            ih s3 (idx + 1) (ri + 1 - 1) lh true hh
              (by omega) (by omega) (by omega) (by omega) hsn
              (by simp; omega) hhh
          exact ⟨s', ri', lh', hr', hh', hrec, by omega, h2, h3, h4, h5⟩
        | true =>
          rw [if_neg (by simp)]
          have hriA : ri + 1 < n :=
            of_decide_eq_true (Bool.and_elim_left hdvaldef.symm)
          obtain ⟨s3, hpush, hs3l⟩ := heapPushE_ok s2 splitIdx lh (s.getD idx 0)
            (by omega)
          rw [hpush, SM.bind_pure]
          obtain ⟨s', ri', lh', hr', hh', hrec, hl, h2, h3, h4, h5⟩ :=
            ih s3 (idx + 1) (ri + 1) (lh + 1) (decide (ri + 1 < n)) true
              (by omega) (by omega) (by omega) (by omega) hsn
              (by simp) (by simp)
          exact ⟨s', ri', lh', hr', hh', hrec, by omega, h2, h3, h4, h5⟩

theorem condLessE_shape (g : Bool) (s : List Int) (i j : Nat) :
    (∃ b, Hpkg.condLessE g s i j = pure b) ∨
    (∃ w, Hpkg.condLessE g s i j = throw (.oob w)) := by
  cases g with
  | false => exact Or.inl ⟨false, rfl⟩
  | true =>
    rw [Hpkg.condLessE, if_pos rfl, Hpkg.lessE]
    by_cases hi : i < s.length
    · rw [getE_ok s i hi, SM.bind_pure]
      by_cases hj : j < s.length
      · rw [getE_ok s j hj, SM.bind_pure]
        exact Or.inl ⟨_, rfl⟩
      · rw [getE, dif_neg hj, SM.bind_throw]
        exact Or.inr ⟨s, rfl⟩
    · rw [getE, dif_neg hi, SM.bind_throw]
      exact Or.inr ⟨s, rfl⟩


theorem SM.pure_ne_error {α : Type} (x : α) (e : SErr) :
    (pure x : SM α) ≠ Except.error e := fun h => Except.noConfusion h

theorem SM.throw_ne_noFuel {α : Type} (w : List Int) (e : SErr)
    (he : errState e ≠ none) : (throw e : SM α) ≠ Except.error SErr.noFuel := by
  intro h
  rw [show e = SErr.noFuel from Except.error.inj h] at he
  exact he rfl

theorem SM.error_bind {α β : Type} (e : SErr) (f : α → SM β) :
    (Except.error e >>= f : SM β) = Except.error e := rfl

theorem SM.ok_bind {α β : Type} (x : α) (f : α → SM β) :
    (Except.ok x >>= f : SM β) = f x := rfl

theorem heapResidual_noFuel
    (recur : List Int → Nat → SM (List Int × List (Nat × Nat × Bool)))
    (k splitIdx : Nat) (s2 : List Int) (ri lh : Nat)
    (hsp : splitIdx ≤ s2.length)
    (hrec : ∀ w, w.length = s2.length - splitIdx →
      recur w lh ≠ Except.error SErr.noFuel) :
    Hpkg.heapResidual recur k splitIdx s2 ri lh ≠ Except.error SErr.noFuel := by
  rw [Hpkg.heapResidual]
  by_cases hlh0 : lh = 0
  · rw [if_pos hlh0]
    exact SM.pure_ne_error _ _
  · rw [if_neg hlh0]
    rcases condLessE_shape (decide (lh = 1)) s2 splitIdx ri with ⟨b, hb⟩ | ⟨w, hw⟩
    · rw [hb, SM.bind_pure]
      by_cases hbe : b = true
      · rw [if_pos hbe]
        exact SM.pure_ne_error _ _
      · rw [if_neg hbe]
        by_cases hsel : Hpkg.shouldUseAppended k lh
        · rw [if_neg (by simpa using hsel)]
          obtain ⟨s3, hrot, hs3l⟩ := rotateE_ok s2 splitIdx s2.length
            (toInt64 k - (lh : Int)) hsp (le_refl _)
          rw [hrot, SM.bind_pure]
          have hwlen : (extract s3 splitIdx s3.length).length = s2.length - splitIdx := by
            rw [extract_length s3 _ _ (by omega) (le_refl _)]
            omega
          intro hcontra
          cases hrx : recur (extract s3 splitIdx s3.length) lh with
          | error e =>
            rw [hrx, SM.error_bind] at hcontra
            exact hrec _ hwlen (by rw [hrx, Except.error.inj hcontra])
          | ok r =>
            rw [hrx, SM.ok_bind] at hcontra
            exact SM.pure_ne_error _ _ hcontra
        · rw [if_pos (by simpa using hsel)]
          exact SM.pure_ne_error _ _
    · rw [hw, SM.bind_throw]
      exact SM.throw_ne_noFuel w _ (by simp [errState])

/-- The heap-merge engine never exhausts its fuel when the fuel exceeds the
sequence length: its recursive self-invocation operates on the strictly
shorter tail window, so the recursion is well-founded (for any element
values — an unsorted input can only end in an ordinary error, never in
divergence). -/
theorem heapAppendSortT_noFuel : ∀ (fuel : Nat) (s : List Int) (k : Nat),
    k ≤ s.length → s.length < 2 ^ 63 → s.length < fuel →
    Hpkg.heapAppendSortT fuel s k ≠ Except.error SErr.noFuel := by
  intro fuel
  induction fuel with
  | zero => intro s k _ _ h; omega
  | succ fuel ih =>
    intro s k hk hn hfuel
    rw [Hpkg.heapAppendSortT]
    by_cases hk0 : k = 0
    · rw [if_pos hk0]
      exact SM.pure_ne_error _ _
    · rw [if_neg hk0, toInt64_eq k (by omega)]
      by_cases hkn : k = s.length
      · rw [if_pos (by rw [hkn]; ring)]
        exact SM.pure_ne_error _ _
      · have hlt : k < s.length := by omega
        rw [if_neg (by push_cast; omega), if_neg (by push_cast; omega)]
        have hsp : ((s.length : Int) - (k : Int)).toNat = s.length - k := by omega
        rw [hsp, Hpkg.heapGo]
        obtain ⟨s1, hs1, hs1l⟩ := sortWinAscE_ok s (s.length - k) (by omega)
        rw [hs1, SM.bind_pure]
        rw [getE_ok s1 (s.length - k) (by omega), SM.bind_pure]
        rw [getE_ok s1 (s.length - k - 1) (by omega), SM.bind_pure]
        by_cases hless : ¬ (s1.getD (s.length - k) 0 < s1.getD (s.length - k - 1) 0)
        · rw [if_pos hless]
          exact SM.pure_ne_error _ _
        · rw [if_neg hless]
          have hf : ∀ i, 0 ≤ i → i < s.length - k →
              (do
                let x ← (pure (s1.getD (s.length - k) 0) : SM Int)
                let y ← getE s1 i
                pure (decide (x < y)) : SM Bool) =
              pure (decide (s1.getD (s.length - k) 0 < s1.getD i 0)) := by
            intro i _ hi
            rw [SM.bind_pure, getE_ok s1 i (by omega), SM.bind_pure]
          obtain ⟨ms, hms, hms0, hmsle, _, _⟩ :=
            goSearchM_spec (fun i => decide (s1.getD (s.length - k) 0 < s1.getD i 0))
              (s.length - k) 0 (s.length - k) _ (by omega) hf (by omega)
          rw [goSearch, hms, SM.bind_pure]
          by_cases hmsge : ms ≥ s.length - k
          · rw [if_pos hmsge]
            exact SM.throw_ne_noFuel s1 _ (by simp [errState])
          · rw [if_neg hmsge]
            obtain ⟨s2, ri, lh, hr', hh', hloop, hs2l, hri, hrin, hhr2, hhh2⟩ :=
              heapLoop_struct (s.length - k) s1.length (s.length - k - ms) s1 ms
                (s.length - k) 0 true false rfl (by omega) (by omega) (by omega)
                (by omega) ⟨fun _ => by omega, fun _ => rfl⟩ (by simp)
            rw [hloop, SM.bind_pure]
            refine heapResidual_noFuel (Hpkg.heapAppendSortT fuel) k (s.length - k)
              s2 ri lh (by omega) ?_
            intro w hw
            exact ih w lh (by omega) (by omega) (by omega)

theorem condLessE_true_eq (s : List Int) (i j : Nat) :
    Hpkg.condLessE true s i j = Hpkg.lessE s i j := rfl

theorem condLessE_false_eq (s : List Int) (i j : Nat) :
    Hpkg.condLessE false s i j = pure false := rfl

theorem heapPopE_decomp (A C H' : List Int) (h : Int) (splitIdx lh : Nat)
    (h1 : splitIdx = A.length) (h2 : lh = H'.length + 1) :
    Hpkg.heapPopE (A ++ (h :: H') ++ C) splitIdx lh =
      pure (h, A ++ (H' ++ [h]) ++ C) := by
  have hcond : splitIdx + lh ≤ (A ++ (h :: H') ++ C).length := by
    simp only [List.length_append, List.length_cons]; omega
  have hx : extract (A ++ (h :: H') ++ C) splitIdx (splitIdx + lh) = h :: H' :=
    extract_decomp A (h :: H') C splitIdx (splitIdx + lh) h1 (by simp; omega)
  have hs : splice (A ++ (h :: H') ++ C) splitIdx (splitIdx + lh) (H' ++ [h]) =
      A ++ (H' ++ [h]) ++ C :=
    splice_decomp A (h :: H') C splitIdx (splitIdx + lh) (H' ++ [h]) h1 (by simp; omega)
  rw [Hpkg.heapPopE, if_pos hcond, hx]
  show pure (h, splice (A ++ (h :: H') ++ C) splitIdx (splitIdx + lh) (H' ++ [h])) = _
  rw [hs]

theorem heapPushE_decomp (A W C : List Int) (j v : Int) (splitIdx lh : Nat)
    (h1 : splitIdx = A.length) (h2 : lh = W.length) :
    Hpkg.heapPushE (A ++ (W ++ [j]) ++ C) splitIdx lh v =
      pure (A ++ List.orderedInsert (· ≤ ·) v W ++ C) := by
  have hcond : splitIdx + lh + 1 ≤ (A ++ (W ++ [j]) ++ C).length := by
    simp only [List.length_append, List.length_cons, List.length_nil]; omega
  have hx : extract (A ++ (W ++ [j]) ++ C) splitIdx (splitIdx + lh) = W := by
    have e : A ++ (W ++ [j]) ++ C = A ++ W ++ (j :: C) := by simp
    rw [e]
    exact extract_decomp A W (j :: C) splitIdx (splitIdx + lh) h1 (by omega)
  have hs : splice (A ++ (W ++ [j]) ++ C) splitIdx (splitIdx + lh + 1)
      (List.orderedInsert (· ≤ ·) v W) = A ++ List.orderedInsert (· ≤ ·) v W ++ C :=
    splice_decomp A (W ++ [j]) C splitIdx (splitIdx + lh + 1) _ h1 (by simp; omega)
  rw [Hpkg.heapPushE, if_pos hcond, hx, hs]

theorem perm_heapA (D PU H Rt : List Int) (u v : Int) :
    ((D ++ [u]) ++ PU ++ H ++ (v :: Rt)) ~ (D ++ (v :: PU) ++ (u :: H) ++ Rt) := by
  have h1 : v :: Rt = [v] ++ Rt := rfl
  have h2 : v :: PU = [v] ++ PU := rfl
  have h3 : u :: H = [u] ++ H := rfl
  rw [h1, h2, h3, ← Multiset.coe_eq_coe]
  simp only [← Multiset.coe_add]
  abel

theorem perm_heapB (D PU H Rt : List Int) (u v : Int) :
    ((D ++ [u]) ++ PU ++ H ++ (v :: Rt)) ~ (D ++ (v :: PU) ++ H ++ (u :: Rt)) := by
  have h1 : v :: Rt = [v] ++ Rt := rfl
  have h2 : v :: PU = [v] ++ PU := rfl
  have h3 : u :: Rt = [u] ++ Rt := rfl
  rw [h1, h2, h3, ← Multiset.coe_eq_coe]
  simp only [← Multiset.coe_add]
  abel

theorem perm_heapC (D PU H Rt : List Int) (u v : Int) :
    ((D ++ [u]) ++ PU ++ (v :: H) ++ Rt) ~ (D ++ (v :: PU) ++ (u :: H) ++ Rt) := by
  have h1 : v :: H = [v] ++ H := rfl
  have h2 : v :: PU = [v] ++ PU := rfl
  have h3 : u :: H = [u] ++ H := rfl
  rw [h1, h2, h3, ← Multiset.coe_eq_coe]
  simp only [← Multiset.coe_add]
  abel

theorem perm_heapD (D PU H Rt : List Int) (u v : Int) :
    ((D ++ [u]) ++ PU ++ (v :: H) ++ Rt) ~ (D ++ (v :: PU) ++ H ++ (u :: Rt)) := by
  have h1 : v :: H = [v] ++ H := rfl
  have h2 : v :: PU = [v] ++ PU := rfl
  have h3 : u :: Rt = [u] ++ Rt := rfl
  rw [h1, h2, h3, ← Multiset.coe_eq_coe]
  simp only [← Multiset.coe_add]
  abel

theorem heapLoop_sorted_right (splitIdx n c : Nat)
    (ih : ∀ (D PU H Rt : List Int) (idx ri lh : Nat) (hh : Bool),
      idx = D.length → splitIdx = idx + PU.length → c = PU.length →
      lh = H.length → ri = splitIdx + lh → n = ri + Rt.length → 0 < Rt.length →
      hh = decide (0 < H.length) →
      List.Sorted (· ≤ ·) D → List.Sorted (· ≤ ·) PU → List.Sorted (· ≤ ·) H →
      List.Sorted (· ≤ ·) Rt →
      (∀ d ∈ D, ∀ x ∈ PU ++ H ++ Rt, d ≤ x) →
      ∃ D2 H2 Rt2 hr2 hh2,
        Hpkg.heapLoop splitIdx n c (D ++ PU ++ H ++ Rt) idx ri lh true hh =
          pure (D2 ++ H2 ++ Rt2, splitIdx + H2.length, H2.length, hr2, hh2) ∧
        D2.length = splitIdx ∧ 0 < Rt2.length ∧
        List.Sorted (· ≤ ·) D2 ∧ List.Sorted (· ≤ ·) H2 ∧ List.Sorted (· ≤ ·) Rt2 ∧
        (∀ d ∈ D2, ∀ x ∈ H2 ++ Rt2, d ≤ x) ∧
        (D2 ++ H2 ++ Rt2) ~ (D ++ PU ++ H ++ Rt))
    (D PU' H Rt' : List Int) (p r : Int) (idx ri lh : Nat) (hh : Bool)
    (hD : idx = D.length) (hsp : splitIdx = idx + PU'.length + 1)
    (hc : c = PU'.length) (hlh : lh = H.length) (hri : ri = splitIdx + lh)
    (hn : n = ri + Rt'.length + 1) (hhh : hh = decide (0 < H.length))
    (hsD : List.Sorted (· ≤ ·) D) (hsPU : List.Sorted (· ≤ ·) (p :: PU'))
    (hsH : List.Sorted (· ≤ ·) H) (hsRt : List.Sorted (· ≤ ·) (r :: Rt'))
    (hDom : ∀ d ∈ D, ∀ x ∈ (p :: PU') ++ H ++ (r :: Rt'), d ≤ x)
    (hrp : r < p) (hrh : ∀ x ∈ H, r ≤ x) :
    ∃ D2 H2 Rt2 hr2 hh2,
      (do
        let afr2 ← Hpkg.condLessE (decide (ri + 1 < n))
          (D ++ (p :: PU') ++ H ++ (r :: Rt')) (ri + 1) idx
        let v ← getE (D ++ (p :: PU') ++ H ++ (r :: Rt')) ri
        let s2 ← setE (D ++ (p :: PU') ++ H ++ (r :: Rt')) idx v
        if ¬ afr2 then do
          let s3 ← setE s2 (ri + 1 - 1) p
          Hpkg.heapLoop splitIdx n c s3 (idx + 1) (ri + 1 - 1) lh true hh
        else do
          let s3 ← Hpkg.heapPushE s2 splitIdx lh p
          Hpkg.heapLoop splitIdx n c s3 (idx + 1) (ri + 1) (lh + 1)
            (decide (ri + 1 < n)) true : SM (List Int × Nat × Nat × Bool × Bool)) =
        pure (D2 ++ H2 ++ Rt2, splitIdx + H2.length, H2.length, hr2, hh2) ∧
      D2.length = splitIdx ∧ 0 < Rt2.length ∧
      List.Sorted (· ≤ ·) D2 ∧ List.Sorted (· ≤ ·) H2 ∧ List.Sorted (· ≤ ·) Rt2 ∧
      (∀ d ∈ D2, ∀ x ∈ H2 ++ Rt2, d ≤ x) ∧
      (D2 ++ H2 ++ Rt2) ~ (D ++ (p :: PU') ++ H ++ (r :: Rt')) := by
  have hgp : getE (D ++ (p :: PU') ++ H ++ (r :: Rt')) idx = pure p := by
    have e : D ++ (p :: PU') ++ H ++ (r :: Rt') = D ++ p :: (PU' ++ H ++ (r :: Rt')) := by
      simp
    rw [e]
    exact getE_append_len D _ p idx hD
  have hgr : getE (D ++ (p :: PU') ++ H ++ (r :: Rt')) ri = pure r :=
    getE_append_len (D ++ (p :: PU') ++ H) Rt' r ri (by simp; omega)
  have hpPU : ∀ x ∈ PU', p ≤ x := (List.sorted_cons.mp hsPU).1
  have hsPU' : List.Sorted (· ≤ ·) PU' := (List.sorted_cons.mp hsPU).2
  have hrRt : ∀ x ∈ Rt', r ≤ x := (List.sorted_cons.mp hsRt).1
  have hsDr : List.Sorted (· ≤ ·) (D ++ [r]) :=
    sortedAsc_append D [r] hsD (List.sorted_singleton r)
      (fun d hd x hx => by
        have hx' : x = r := by simpa using hx
        rw [hx']
        exact hDom d hd r (by simp))
  cases Rt' with
  | nil =>
    have hn' : n = ri + 1 := by simpa using hn
    have hdec : decide (ri + 1 < n) = false := decide_eq_false (by omega)
    rw [hdec, condLessE_false_eq, SM.bind_pure, hgr, SM.bind_pure]
    have hset : setE (D ++ (p :: PU') ++ H ++ [r]) idx r
        = pure (D ++ (r :: PU') ++ H ++ [r]) := by
      have e1 : D ++ (p :: PU') ++ H ++ [r] = D ++ p :: (PU' ++ H ++ [r]) := by simp
      have e2 : D ++ (r :: PU') ++ H ++ [r] = D ++ r :: (PU' ++ H ++ [r]) := by simp
      rw [e1, e2]
      exact setE_append_len D _ p r idx hD
    rw [hset, SM.bind_pure, if_pos (by simp)]
    have hset3 : setE (D ++ (r :: PU') ++ H ++ [r]) (ri + 1 - 1) p
        = pure ((D ++ [r]) ++ PU' ++ H ++ [p]) := by
      have e1 : D ++ (r :: PU') ++ H ++ [r] = (D ++ (r :: PU') ++ H) ++ r :: [] := by simp
      have e2 : (D ++ [r]) ++ PU' ++ H ++ [p] = (D ++ (r :: PU') ++ H) ++ p :: [] := by
        simp
      rw [e1, e2]
      exact setE_append_len (D ++ (r :: PU') ++ H) [] r p (ri + 1 - 1) (by simp; omega)
    rw [hset3, SM.bind_pure]
    obtain ⟨D2, H2, Rt2, hr2, hh2, hrec, hlen, hpos, a1, a2, a3, a4, hperm⟩ :=
      ih (D ++ [r]) PU' H [p] (idx + 1) (ri + 1 - 1) lh hh
        (by simp [hD]) (by omega) hc hlh (by omega) (by simp; omega) (by simp) hhh
        hsDr hsPU' hsH (List.sorted_singleton p)
        (by
          intro d hd x hx
          simp at hd hx
          rcases hd with hd | hd
          · refine hDom d hd x ?_
            simp
            tauto
          · rw [hd]
            rcases hx with hx | hx | hx
            · exact le_trans (le_of_lt hrp) (hpPU x hx)
            · exact hrh x hx
            · rw [hx]
              exact le_of_lt hrp)
    exact ⟨D2, H2, Rt2, hr2, hh2, hrec, hlen, hpos, a1, a2, a3, a4,
      hperm.trans (perm_heapB D PU' H [] r p)⟩
  | cons r1 Rt'' =>
    have hn' : n = ri + Rt''.length + 2 := by simp at hn; omega
    have hr1Rt : ∀ x ∈ Rt'', r1 ≤ x := (List.sorted_cons.mp (List.sorted_cons.mp hsRt).2).1
    have hdec : decide (ri + 1 < n) = true := decide_eq_true (by omega)
    rw [hdec]
    have hgr1 : getE (D ++ (p :: PU') ++ H ++ (r :: r1 :: Rt'')) (ri + 1) = pure r1 := by
      have e : D ++ (p :: PU') ++ H ++ (r :: r1 :: Rt'')
          = (D ++ (p :: PU') ++ H ++ [r]) ++ r1 :: Rt'' := by simp
      rw [e]
      exact getE_append_len (D ++ (p :: PU') ++ H ++ [r]) Rt'' r1 (ri + 1) (by simp; omega)
    have hafr2 : Hpkg.condLessE true (D ++ (p :: PU') ++ H ++ (r :: r1 :: Rt''))
        (ri + 1) idx = pure (decide (r1 < p)) := by
      rw [condLessE_true_eq, Hpkg.lessE, hgr1, SM.bind_pure, hgp, SM.bind_pure]
    rw [hafr2, SM.bind_pure, hgr, SM.bind_pure]
    have hset : setE (D ++ (p :: PU') ++ H ++ (r :: r1 :: Rt'')) idx r
        = pure (D ++ (r :: PU') ++ H ++ (r :: r1 :: Rt'')) := by
      have e1 : D ++ (p :: PU') ++ H ++ (r :: r1 :: Rt'')
          = D ++ p :: (PU' ++ H ++ (r :: r1 :: Rt'')) := by simp
      have e2 : D ++ (r :: PU') ++ H ++ (r :: r1 :: Rt'')
          = D ++ r :: (PU' ++ H ++ (r :: r1 :: Rt'')) := by simp
      rw [e1, e2]
      exact setE_append_len D _ p r idx hD
    rw [hset, SM.bind_pure]
    by_cases hr1p : r1 < p
    · rw [if_neg (by simp [hr1p])]
      have hpush : Hpkg.heapPushE (D ++ (r :: PU') ++ H ++ (r :: r1 :: Rt''))
          splitIdx lh p
          = pure ((D ++ [r]) ++ PU' ++ List.orderedInsert (· ≤ ·) p H
              ++ (r1 :: Rt'')) := by
        have e1 : D ++ (r :: PU') ++ H ++ (r :: r1 :: Rt'')
            = (D ++ (r :: PU')) ++ (H ++ [r]) ++ (r1 :: Rt'') := by simp
        have e2 : (D ++ [r]) ++ PU' ++ List.orderedInsert (· ≤ ·) p H ++ (r1 :: Rt'')
            = (D ++ (r :: PU')) ++ List.orderedInsert (· ≤ ·) p H ++ (r1 :: Rt'') := by
          simp
        rw [e1, e2]
        exact heapPushE_decomp (D ++ (r :: PU')) H (r1 :: Rt'') r p splitIdx lh
          (by simp; omega) hlh
      rw [hpush, SM.bind_pure]
      obtain ⟨D2, H2, Rt2, hr2, hh2, hrec, hlen, hpos, a1, a2, a3, a4, hperm⟩ :=
        ih (D ++ [r]) PU' (List.orderedInsert (· ≤ ·) p H) (r1 :: Rt'')
          (idx + 1) (ri + 1) (lh + 1) true
          (by simp [hD]) (by omega) hc (by simp [List.orderedInsert_length]; omega)
          (by omega) (by simp; omega) (by simp)
          (by simp [List.orderedInsert_length])
          hsDr hsPU' (List.Sorted.orderedInsert p H hsH)
          (List.sorted_cons.mp hsRt).2
          (by
            intro d hd x hx
            simp [List.mem_orderedInsert] at hd hx
            rcases hd with hd | hd
            · refine hDom d hd x ?_
              simp [List.mem_orderedInsert] at hx ⊢
              tauto
            · rw [hd]
              rcases hx with hx | (hx | hx) | hx | hx
              · exact le_trans (le_of_lt hrp) (hpPU x hx)
              · rw [hx]
                exact le_of_lt hrp
              · exact hrh x hx
              · rw [hx]
                exact hrRt r1 (by simp)
              · exact hrRt x (by simp [hx]))
      exact ⟨D2, H2, Rt2, hr2, hh2, hrec, hlen, hpos, a1, a2, a3, a4,
        hperm.trans ((List.Perm.append_right (r1 :: Rt'')
          (List.Perm.append_left ((D ++ [r]) ++ PU')
            (List.perm_orderedInsert _ p H))).trans
          (perm_heapD D PU' H (r1 :: Rt'') r p))⟩
    · rw [if_pos (by simp [hr1p])]
      have hset3 : setE (D ++ (r :: PU') ++ H ++ (r :: r1 :: Rt'')) (ri + 1 - 1) p
          = pure ((D ++ [r]) ++ PU' ++ H ++ (p :: r1 :: Rt'')) := by
        have e1 : D ++ (r :: PU') ++ H ++ (r :: r1 :: Rt'')
            = (D ++ (r :: PU') ++ H) ++ r :: (r1 :: Rt'') := by simp
        have e2 : (D ++ [r]) ++ PU' ++ H ++ (p :: r1 :: Rt'')
            = (D ++ (r :: PU') ++ H) ++ p :: (r1 :: Rt'') := by simp
        rw [e1, e2]
        exact setE_append_len (D ++ (r :: PU') ++ H) (r1 :: Rt'') r p (ri + 1 - 1)
          (by simp; omega)
      rw [hset3, SM.bind_pure]
      obtain ⟨D2, H2, Rt2, hr2, hh2, hrec, hlen, hpos, a1, a2, a3, a4, hperm⟩ :=
        ih (D ++ [r]) PU' H (p :: r1 :: Rt'') (idx + 1) (ri + 1 - 1) lh hh
          (by simp [hD]) (by omega) hc hlh (by omega) (by simp; omega) (by simp) hhh
          hsDr hsPU' hsH
          (List.sorted_cons.mpr ⟨fun x hx => by
            rcases (by simpa using hx : x = r1 ∨ x ∈ Rt'') with hx' | hx'
            · subst hx'
              exact not_lt.mp hr1p
            · exact le_trans (not_lt.mp hr1p) (hr1Rt x hx'),
            (List.sorted_cons.mp hsRt).2⟩)
          (by
            intro d hd x hx
            simp at hd hx
            rcases hd with hd | hd
            · refine hDom d hd x ?_
              simp
              tauto
            · rw [hd]
              rcases hx with hx | hx | hx | hx | hx
              · exact le_trans (le_of_lt hrp) (hpPU x hx)
              · exact hrh x hx
              · rw [hx]
                exact le_of_lt hrp
              · rw [hx]
                exact hrRt r1 (by simp)
              · exact hrRt x (by simp [hx]))
      exact ⟨D2, H2, Rt2, hr2, hh2, hrec, hlen, hpos, a1, a2, a3, a4,
        hperm.trans (perm_heapB D PU' H (r1 :: Rt'') r p)⟩

set_option maxHeartbeats 1600000 in
theorem heapLoop_sorted (splitIdx n : Nat) : ∀ (c : Nat) (D PU H Rt : List Int)
    (idx ri lh : Nat) (hh : Bool),
    idx = D.length → splitIdx = idx + PU.length → c = PU.length →
    lh = H.length → ri = splitIdx + lh → n = ri + Rt.length → 0 < Rt.length →
    hh = decide (0 < H.length) →
    List.Sorted (· ≤ ·) D → List.Sorted (· ≤ ·) PU → List.Sorted (· ≤ ·) H →
    List.Sorted (· ≤ ·) Rt →
    (∀ d ∈ D, ∀ x ∈ PU ++ H ++ Rt, d ≤ x) →
    ∃ D2 H2 Rt2 hr2 hh2,
      Hpkg.heapLoop splitIdx n c (D ++ PU ++ H ++ Rt) idx ri lh true hh =
        pure (D2 ++ H2 ++ Rt2, splitIdx + H2.length, H2.length, hr2, hh2) ∧
      D2.length = splitIdx ∧ 0 < Rt2.length ∧
      List.Sorted (· ≤ ·) D2 ∧ List.Sorted (· ≤ ·) H2 ∧ List.Sorted (· ≤ ·) Rt2 ∧
      (∀ d ∈ D2, ∀ x ∈ H2 ++ Rt2, d ≤ x) ∧
      (D2 ++ H2 ++ Rt2) ~ (D ++ PU ++ H ++ Rt) := by
  intro c
  induction c with
  | zero =>
    intro D PU H Rt idx ri lh hh hD hsp hc hlh hri hn hpos hhh hsD hsPU hsH hsRt hDom
    have hPU : PU = [] := List.length_eq_zero.mp (by omega)
    subst hPU
    refine ⟨D, H, Rt, true, hh, ?_, by omega, hpos, hsD, hsH, hsRt,
      (fun d hd x hx => hDom d hd x (by simpa using hx)), by simp⟩
    have hri2 : ri = splitIdx + H.length := by omega
    rw [Hpkg.heapLoop, hri2, hlh]
    simp
  | succ c ih =>
    intro D PU H Rt idx ri lh hh hD hsp hc hlh hri hn hpos hhh hsD hsPU hsH hsRt hDom
    cases PU with
    | nil => simp at hc
    | cons p PU' =>
    cases Rt with
    | nil => simp at hpos
    | cons r Rt' =>
    have hc2 : c = PU'.length := by simp at hc; omega
    have hsp2 : splitIdx = idx + PU'.length + 1 := by simp at hsp; omega
    have hn2 : n = ri + Rt'.length + 1 := by simp at hn; omega
    have hpPU : ∀ x ∈ PU', p ≤ x := (List.sorted_cons.mp hsPU).1
    have hsPU' : List.Sorted (· ≤ ·) PU' := (List.sorted_cons.mp hsPU).2
    have hrRt : ∀ x ∈ Rt', r ≤ x := (List.sorted_cons.mp hsRt).1
    have hgp : getE (D ++ (p :: PU') ++ H ++ (r :: Rt')) idx = pure p := by
      have e : D ++ (p :: PU') ++ H ++ (r :: Rt') = D ++ p :: (PU' ++ H ++ (r :: Rt')) := by
        simp
      rw [e]
      exact getE_append_len D _ p idx hD
    have hgr : getE (D ++ (p :: PU') ++ H ++ (r :: Rt')) ri = pure r :=
      getE_append_len (D ++ (p :: PU') ++ H) Rt' r ri (by simp; omega)
    have hafr : Hpkg.condLessE true (D ++ (p :: PU') ++ H ++ (r :: Rt')) ri idx
        = pure (decide (r < p)) := by
      rw [condLessE_true_eq, Hpkg.lessE, hgr, SM.bind_pure, hgp, SM.bind_pure]
    cases H with
    | nil =>
      have hh2 : hh = false := by simpa using hhh
      subst hh2
      rw [Hpkg.heapLoop, if_neg (by simp), condLessE_false_eq, SM.bind_pure,
        hafr, SM.bind_pure]
      by_cases hrp : r < p
      · rw [if_neg (by simp [hrp]), hgp, SM.bind_pure]
        have hch : Hpkg.chooseHeapE false (decide (r < p))
            (D ++ (p :: PU') ++ [] ++ (r :: Rt')) splitIdx ri = pure false := rfl
        rw [hch, SM.bind_pure, if_neg (by simp)]
        exact heapLoop_sorted_right splitIdx n c ih D PU' [] Rt' p r idx ri lh false
          hD hsp2 hc2 hlh hri hn2 (by simp) hsD hsPU (by simp) hsRt hDom hrp
          (by simp)
      · rw [if_pos (by simp [hrp])]
        have e2 : D ++ (p :: PU') ++ [] ++ (r :: Rt')
            = (D ++ [p]) ++ PU' ++ [] ++ (r :: Rt') := by simp
        rw [e2]
        exact ih (D ++ [p]) PU' [] (r :: Rt') (idx + 1) ri lh false
          (by simp [hD]) (by omega) hc2 hlh hri (by simp; omega) (by simp) (by simp)
          (sortedAsc_append D [p] hsD (List.sorted_singleton p)
            (fun d hd x hx => by
              have hx' : x = p := by simpa using hx
              rw [hx']
              exact hDom d hd p (by simp)))
          hsPU' (by simp) hsRt
          (by
            intro d hd x hx
            simp at hd hx
            rcases hd with hd | hd
            · refine hDom d hd x ?_
              simp
              tauto
            · rw [hd]
              rcases hx with hx | hx | hx
              · exact hpPU x hx
              · rw [hx]
                exact not_lt.mp hrp
              · exact le_trans (not_lt.mp hrp) (hrRt x hx))
    | cons h H' =>
      have hh2 : hh = true := by simpa using hhh
      subst hh2
      have hlh2 : lh = H'.length + 1 := by simpa using hlh
      have hhH : ∀ x ∈ H', h ≤ x := (List.sorted_cons.mp hsH).1
      have hsH' : List.Sorted (· ≤ ·) H' := (List.sorted_cons.mp hsH).2
      have hgh : getE (D ++ (p :: PU') ++ (h :: H') ++ (r :: Rt')) splitIdx = pure h := by
        have e : D ++ (p :: PU') ++ (h :: H') ++ (r :: Rt')
            = (D ++ (p :: PU')) ++ h :: (H' ++ (r :: Rt')) := by simp
        rw [e]
        exact getE_append_len (D ++ (p :: PU')) _ h splitIdx (by simp; omega)
      have hafh : Hpkg.condLessE true (D ++ (p :: PU') ++ (h :: H') ++ (r :: Rt'))
          splitIdx idx = pure (decide (h < p)) := by
        rw [condLessE_true_eq, Hpkg.lessE, hgh, SM.bind_pure, hgp, SM.bind_pure]
      have hsDh : List.Sorted (· ≤ ·) (D ++ [h]) :=
        sortedAsc_append D [h] hsD (List.sorted_singleton h)
          (fun d hd x hx => by
            have hx' : x = h := by simpa using hx
            rw [hx']
            exact hDom d hd h (by simp))
      rw [Hpkg.heapLoop, if_neg (by simp), hafh, SM.bind_pure, hafr, SM.bind_pure]
      by_cases hcont : ¬ r < p ∧ ¬ h < p
      · rw [if_pos (by simp [hcont.1, hcont.2])]
        have e2 : D ++ (p :: PU') ++ (h :: H') ++ (r :: Rt')
            = (D ++ [p]) ++ PU' ++ (h :: H') ++ (r :: Rt') := by simp
        rw [e2]
        exact ih (D ++ [p]) PU' (h :: H') (r :: Rt') (idx + 1) ri lh true
          (by simp [hD]) (by omega) hc2 hlh hri (by simp; omega) (by simp) (by simp)
          (sortedAsc_append D [p] hsD (List.sorted_singleton p)
            (fun d hd x hx => by
              have hx' : x = p := by simpa using hx
              rw [hx']
              exact hDom d hd p (by simp)))
          hsPU' hsH hsRt
          (by
            intro d hd x hx
            simp at hd hx
            rcases hd with hd | hd
            · refine hDom d hd x ?_
              simp
              tauto
            · rw [hd]
              rcases hx with hx | hx | hx | hx | hx
              · exact hpPU x hx
              · rw [hx]
                exact not_lt.mp hcont.2
              · exact le_trans (not_lt.mp hcont.2) (hhH x hx)
              · rw [hx]
                exact not_lt.mp hcont.1
              · exact le_trans (not_lt.mp hcont.1) (hrRt x hx))
      · rw [if_neg (by simp only [decide_eq_true_eq]; exact hcont), hgp, SM.bind_pure]
        by_cases hhp : h < p
        · by_cases hrp : r < p
          · have hch : Hpkg.chooseHeapE (decide (h < p)) (decide (r < p))
                (D ++ (p :: PU') ++ (h :: H') ++ (r :: Rt')) splitIdx ri
                = pure (decide (h < r)) := by
              rw [decide_eq_true hhp, decide_eq_true hrp]
              show Hpkg.lessE _ splitIdx ri = _
              rw [Hpkg.lessE, hgh, SM.bind_pure, hgr, SM.bind_pure]
            rw [hch, SM.bind_pure]
            by_cases hhr : h < r
            · rw [if_pos (by simp [hhr])]
              have hpop : Hpkg.heapPopE (D ++ (p :: PU') ++ (h :: H') ++ (r :: Rt'))
                  splitIdx lh
                  = pure (h, (D ++ (p :: PU')) ++ (H' ++ [h]) ++ (r :: Rt')) :=
                heapPopE_decomp (D ++ (p :: PU')) (r :: Rt') H' h splitIdx lh
                  (by simp; omega) hlh2
              rw [hpop, SM.bind_pure]
              have hset2 : setE ((D ++ (p :: PU')) ++ (H' ++ [h]) ++ (r :: Rt')) idx h
                  = pure (D ++ (h :: PU') ++ (H' ++ [h]) ++ (r :: Rt')) := by
                have e1 : (D ++ (p :: PU')) ++ (H' ++ [h]) ++ (r :: Rt')
                    = D ++ p :: (PU' ++ (H' ++ [h]) ++ (r :: Rt')) := by simp
                have e2 : D ++ (h :: PU') ++ (H' ++ [h]) ++ (r :: Rt')
                    = D ++ h :: (PU' ++ (H' ++ [h]) ++ (r :: Rt')) := by simp
                rw [e1, e2]
                exact setE_append_len D _ p h idx hD
              rw [hset2, SM.bind_pure, if_neg (by simp [hrp])]
              have hpush : Hpkg.heapPushE (D ++ (h :: PU') ++ (H' ++ [h]) ++ (r :: Rt'))
                  splitIdx (lh - 1) p
                  = pure ((D ++ [h]) ++ PU' ++ List.orderedInsert (· ≤ ·) p H'
                      ++ (r :: Rt')) := by
                have e2 : (D ++ [h]) ++ PU' ++ List.orderedInsert (· ≤ ·) p H'
                    ++ (r :: Rt')
                    = (D ++ (h :: PU')) ++ List.orderedInsert (· ≤ ·) p H'
                      ++ (r :: Rt') := by simp
                rw [e2]
                exact heapPushE_decomp (D ++ (h :: PU')) H' (r :: Rt') h p splitIdx
                  (lh - 1) (by simp; omega) (by omega)
              rw [hpush, SM.bind_pure]
              obtain ⟨D2, H2, Rt2, hr2, hh2v, hrec, hlen, hpos2, a1, a2, a3, a4, hperm⟩ :=
                ih (D ++ [h]) PU' (List.orderedInsert (· ≤ ·) p H') (r :: Rt')
                  (idx + 1) ri (lh - 1 + 1) true
                  (by simp [hD]) (by omega) hc2
                  (by simp [List.orderedInsert_length]; omega)
                  (by omega) (by simp; omega) (by simp)
                  (by simp [List.orderedInsert_length])
                  hsDh hsPU' (List.Sorted.orderedInsert p H' hsH') hsRt
                  (by
                    intro d hd x hx
                    simp [List.mem_orderedInsert] at hd hx
                    rcases hd with hd | hd
                    · refine hDom d hd x ?_
                      simp
                      tauto
                    · rw [hd]
                      rcases hx with hx | (hx | hx) | hx | hx
                      · exact le_trans (le_of_lt hhp) (hpPU x hx)
                      · rw [hx]
                        exact le_of_lt hhp
                      · exact hhH x hx
                      · rw [hx]
                        exact le_of_lt hhr
                      · exact le_trans (le_of_lt hhr) (hrRt x hx))
              exact ⟨D2, H2, Rt2, hr2, hh2v, hrec, hlen, hpos2, a1, a2, a3, a4,
                hperm.trans ((List.Perm.append_right (r :: Rt')
                  (List.Perm.append_left ((D ++ [h]) ++ PU')
                    (List.perm_orderedInsert _ p H'))).trans
                  (perm_heapC D PU' H' (r :: Rt') h p))⟩
            · rw [if_neg (by simp [hhr])]
              exact heapLoop_sorted_right splitIdx n c ih D PU' (h :: H') Rt' p r idx ri
                lh true hD hsp2 hc2 hlh hri hn2 (by simp) hsD hsPU hsH hsRt hDom hrp
                (fun x hx => by
                  rcases (by simpa using hx : x = h ∨ x ∈ H') with hx' | hx'
                  · rw [hx']
                    exact not_lt.mp hhr
                  · exact le_trans (not_lt.mp hhr) (hhH x hx'))
          · have hch : Hpkg.chooseHeapE (decide (h < p)) (decide (r < p))
                (D ++ (p :: PU') ++ (h :: H') ++ (r :: Rt')) splitIdx ri
                = pure true := by
              rw [decide_eq_true hhp, decide_eq_false hrp]
              rfl
            rw [hch, SM.bind_pure, if_pos rfl]
            have hpop : Hpkg.heapPopE (D ++ (p :: PU') ++ (h :: H') ++ (r :: Rt'))
                splitIdx lh
                = pure (h, (D ++ (p :: PU')) ++ (H' ++ [h]) ++ (r :: Rt')) :=
              heapPopE_decomp (D ++ (p :: PU')) (r :: Rt') H' h splitIdx lh
                (by simp; omega) hlh2
            rw [hpop, SM.bind_pure]
            have hset2 : setE ((D ++ (p :: PU')) ++ (H' ++ [h]) ++ (r :: Rt')) idx h
                = pure (D ++ (h :: PU') ++ (H' ++ [h]) ++ (r :: Rt')) := by
              have e1 : (D ++ (p :: PU')) ++ (H' ++ [h]) ++ (r :: Rt')
                  = D ++ p :: (PU' ++ (H' ++ [h]) ++ (r :: Rt')) := by simp
              have e2 : D ++ (h :: PU') ++ (H' ++ [h]) ++ (r :: Rt')
                  = D ++ h :: (PU' ++ (H' ++ [h]) ++ (r :: Rt')) := by simp
              rw [e1, e2]
              exact setE_append_len D _ p h idx hD
            rw [hset2, SM.bind_pure, if_pos (by simp [hrp])]
            have hset3 : setE (D ++ (h :: PU') ++ (H' ++ [h]) ++ (r :: Rt')) (ri - 1) p
                = pure ((D ++ [h]) ++ PU' ++ H' ++ (p :: r :: Rt')) := by
              have e1 : D ++ (h :: PU') ++ (H' ++ [h]) ++ (r :: Rt')
                  = (D ++ (h :: PU') ++ H') ++ h :: (r :: Rt') := by simp
              have e2 : (D ++ [h]) ++ PU' ++ H' ++ (p :: r :: Rt')
                  = (D ++ (h :: PU') ++ H') ++ p :: (r :: Rt') := by simp
              rw [e1, e2]
              exact setE_append_len (D ++ (h :: PU') ++ H') (r :: Rt') h p (ri - 1)
                (by simp; omega)
            rw [hset3, SM.bind_pure]
            obtain ⟨D2, H2, Rt2, hr2, hh2v, hrec, hlen, hpos2, a1, a2, a3, a4, hperm⟩ :=
              ih (D ++ [h]) PU' H' (p :: r :: Rt') (idx + 1) (ri - 1) (lh - 1)
                (decide (lh - 1 > 0))
                (by simp [hD]) (by omega) hc2 (by omega) (by omega) (by simp; omega)
                (by simp) (decide_eq_decide.mpr (by omega))
                hsDh hsPU' hsH'
                (List.sorted_cons.mpr ⟨fun x hx => by
                  rcases (by simpa using hx : x = r ∨ x ∈ Rt') with hx' | hx'
                  · rw [hx']
                    exact not_lt.mp hrp
                  · exact le_trans (not_lt.mp hrp) (hrRt x hx'),
                  hsRt⟩)
                (by
                  intro d hd x hx
                  simp at hd hx
                  rcases hd with hd | hd
                  · refine hDom d hd x ?_
                    simp
                    tauto
                  · rw [hd]
                    rcases hx with hx | hx | hx | hx | hx
                    · exact le_trans (le_of_lt hhp) (hpPU x hx)
                    · exact hhH x hx
                    · rw [hx]
                      exact le_of_lt hhp
                    · rw [hx]
                      exact le_trans (le_of_lt hhp) (not_lt.mp hrp)
                    · exact le_trans (le_trans (le_of_lt hhp) (not_lt.mp hrp)) (hrRt x hx))
            exact ⟨D2, H2, Rt2, hr2, hh2v, hrec, hlen, hpos2, a1, a2, a3, a4,
              hperm.trans (perm_heapA D PU' H' (r :: Rt') h p)⟩
        · have hrp : r < p := by
            by_contra hrpn
            exact hcont ⟨hrpn, hhp⟩
          have hch : Hpkg.chooseHeapE (decide (h < p)) (decide (r < p))
              (D ++ (p :: PU') ++ (h :: H') ++ (r :: Rt')) splitIdx ri
              = pure false := by
            rw [decide_eq_false hhp]
            rfl
          rw [hch, SM.bind_pure, if_neg (by simp)]
          exact heapLoop_sorted_right splitIdx n c ih D PU' (h :: H') Rt' p r idx ri lh
            true hD hsp2 hc2 hlh hri hn2 (by simp) hsD hsPU hsH hsRt hDom hrp
            (fun x hx => by
              rcases (by simpa using hx : x = h ∨ x ∈ H') with hx' | hx'
              · rw [hx']
                exact le_trans (le_of_lt hrp) (not_lt.mp hhp)
              · exact le_trans (le_trans (le_of_lt hrp) (not_lt.mp hhp)) (hhH x hx'))

theorem sorted_all_le_last (l : List Int) (hl : List.Sorted (· ≤ ·) l) :
    ∀ x ∈ l, x ≤ l.getD (l.length - 1) 0 := by
  intro x hx
  obtain ⟨i, hi, hig⟩ := List.mem_iff_getElem.mp hx
  have hlast : l.length - 1 < l.length := by omega
  have hgetD : l.getD (l.length - 1) 0 = l[l.length - 1] := by
    rw [List.getD_eq_getElem?_getD, List.getElem?_eq_getElem hlast]
    rfl
  rw [hgetD, ← hig]
  have := hl.rel_get_of_le (a := ⟨i, hi⟩) (b := ⟨l.length - 1, hlast⟩) (by simp; omega)
  simpa using this

theorem heapResidual_tail
    (recur : List Int → Nat → SM (List Int × List (Nat × Nat × Bool)))
    (k splitIdx : Nat) (D2 H2 Rt2 : List Int) (lh : Nat)
    (hD2 : splitIdx = D2.length) (hlh : lh = H2.length)
    (hpos : 0 < Rt2.length) (hk : H2.length + Rt2.length = k) (hk63 : k < 2 ^ 63)
    (hsD2 : List.Sorted (· ≤ ·) D2) (hsRt2 : List.Sorted (· ≤ ·) Rt2)
    (hDom : ∀ d ∈ D2, ∀ x ∈ H2 ++ Rt2, d ≤ x)
    (hrec : ∃ res tr, recur (Rt2 ++ H2) lh = pure (res, tr) ∧
      List.Sorted (· ≤ ·) res ∧ res ~ Rt2 ++ H2) :
    ∃ res tr,
      (if ¬ Hpkg.shouldUseAppended k lh then
        pure (splice (D2 ++ H2 ++ Rt2) splitIdx (D2 ++ H2 ++ Rt2).length
          (goSort (extract (D2 ++ H2 ++ Rt2) splitIdx (D2 ++ H2 ++ Rt2).length)),
          [(k, lh, false)])
      else do
        let s3 ← rotateE (D2 ++ H2 ++ Rt2) splitIdx (D2 ++ H2 ++ Rt2).length
          (toInt64 k - (lh : Int))
        let r ← recur (extract s3 splitIdx s3.length) lh
        pure (splice s3 splitIdx s3.length r.1, (k, lh, true) :: r.2)
          : SM (List Int × List (Nat × Nat × Bool))) =
        pure (res, tr) ∧
      List.Sorted (· ≤ ·) res ∧ res ~ D2 ++ H2 ++ Rt2 := by
  have hext : extract (D2 ++ H2 ++ Rt2) splitIdx (D2 ++ H2 ++ Rt2).length
      = H2 ++ Rt2 := by
    have e : D2 ++ H2 ++ Rt2 = D2 ++ (H2 ++ Rt2) ++ [] := by simp
    rw [e]
    exact extract_decomp D2 (H2 ++ Rt2) [] splitIdx _ hD2 (by simp; omega)
  by_cases hsel : Hpkg.shouldUseAppended k lh
  · rw [if_neg (by simpa using hsel)]
    obtain ⟨res, tr, hreq, hrsort, hrperm⟩ := hrec
    have hamt : toInt64 k - (lh : Int) = ((Rt2.length : Nat) : Int) := by
      rw [toInt64_eq k (by omega)]
      push_cast
      omega
    have hrot : rotateE (D2 ++ H2 ++ Rt2) splitIdx (D2 ++ H2 ++ Rt2).length
        (toInt64 k - (lh : Int))
        = pure (D2 ++ (Rt2 ++ H2) ++ []) := by
      have e : D2 ++ H2 ++ Rt2 = D2 ++ (H2 ++ Rt2) ++ [] := by simp
      rw [hamt, ← rotSeg_right_append H2 Rt2]
      conv_lhs => rw [e]
      exact rotateE_decomp D2 (H2 ++ Rt2) [] splitIdx _ _ hD2 (by simp; omega)
    rw [hrot, SM.bind_pure]
    have hext3 : extract (D2 ++ (Rt2 ++ H2) ++ []) splitIdx
        (D2 ++ (Rt2 ++ H2) ++ []).length = Rt2 ++ H2 :=
      extract_decomp D2 (Rt2 ++ H2) [] splitIdx _ hD2 (by simp; omega)
    rw [hext3, hreq, SM.bind_pure]
    have hspl : splice (D2 ++ (Rt2 ++ H2) ++ []) splitIdx
        (D2 ++ (Rt2 ++ H2) ++ []).length res = D2 ++ res ++ [] :=
      splice_decomp D2 (Rt2 ++ H2) [] splitIdx _ res hD2 (by simp; omega)
    rw [hspl]
    refine ⟨D2 ++ res ++ [], (k, lh, true) :: tr, rfl, ?_, ?_⟩
    · have e : D2 ++ res ++ [] = D2 ++ res := by simp
      rw [e]
      refine sortedAsc_append D2 res hsD2 hrsort ?_
      intro d hd x hx
      have hx2 : x ∈ H2 ++ Rt2 := by
        have := hrperm.mem_iff.mp hx
        simp at this ⊢
        tauto
      exact hDom d hd x hx2
    · have e : D2 ++ res ++ [] = D2 ++ res := by simp
      rw [e]
      calc D2 ++ res ~ D2 ++ (H2 ++ Rt2) :=
            List.Perm.append_left D2 (hrperm.trans (List.perm_append_comm))
        _ = D2 ++ H2 ++ Rt2 := by simp
  · rw [if_pos (by simpa using hsel)]
    have hspl : splice (D2 ++ H2 ++ Rt2) splitIdx (D2 ++ H2 ++ Rt2).length
        (goSort (H2 ++ Rt2)) = D2 ++ goSort (H2 ++ Rt2) ++ [] := by
      have e : D2 ++ H2 ++ Rt2 = D2 ++ (H2 ++ Rt2) ++ [] := by simp
      conv_lhs => rw [e]
      exact splice_decomp D2 (H2 ++ Rt2) [] splitIdx _ _ hD2 (by simp; omega)
    rw [hext, hspl]
    refine ⟨D2 ++ goSort (H2 ++ Rt2) ++ [], [(k, lh, false)], rfl, ?_, ?_⟩
    · have e : D2 ++ goSort (H2 ++ Rt2) ++ [] = D2 ++ goSort (H2 ++ Rt2) := by simp
      rw [e]
      refine sortedAsc_append D2 _ hsD2 (goSort_sorted _) ?_
      intro d hd x hx
      exact hDom d hd x ((goSort_perm _).mem_iff.mp hx)
    · have e : D2 ++ goSort (H2 ++ Rt2) ++ [] = D2 ++ goSort (H2 ++ Rt2) := by simp
      rw [e]
      calc D2 ++ goSort (H2 ++ Rt2) ~ D2 ++ (H2 ++ Rt2) :=
            List.Perm.append_left D2 (goSort_perm _)
        _ = D2 ++ H2 ++ Rt2 := by simp

theorem heapResidual_sorted
    (recur : List Int → Nat → SM (List Int × List (Nat × Nat × Bool)))
    (k splitIdx : Nat) (D2 H2 Rt2 : List Int) (ri lh : Nat)
    (hD2 : splitIdx = D2.length) (hlh : lh = H2.length) (hri : ri = splitIdx + lh)
    (hpos : 0 < Rt2.length) (hk : H2.length + Rt2.length = k) (hk63 : k < 2 ^ 63)
    (hsD2 : List.Sorted (· ≤ ·) D2) (hsH2 : List.Sorted (· ≤ ·) H2)
    (hsRt2 : List.Sorted (· ≤ ·) Rt2)
    (hDom : ∀ d ∈ D2, ∀ x ∈ H2 ++ Rt2, d ≤ x)
    (hrec : ∃ res tr, recur (Rt2 ++ H2) lh = pure (res, tr) ∧
      List.Sorted (· ≤ ·) res ∧ res ~ Rt2 ++ H2) :
    ∃ res tr, Hpkg.heapResidual recur k splitIdx (D2 ++ H2 ++ Rt2) ri lh
      = pure (res, tr) ∧ List.Sorted (· ≤ ·) res ∧ res ~ D2 ++ H2 ++ Rt2 := by
  rw [Hpkg.heapResidual]
  cases H2 with
  | nil =>
    rw [if_pos (by simpa using hlh)]
    refine ⟨D2 ++ [] ++ Rt2, [], rfl, ?_, List.Perm.refl _⟩
    have e : D2 ++ [] ++ Rt2 = D2 ++ Rt2 := by simp
    rw [e]
    refine sortedAsc_append D2 Rt2 hsD2 hsRt2 ?_
    intro d hd x hx
    exact hDom d hd x (by simpa using hx)
  | cons y H2' =>
    have hlh2 : lh = H2'.length + 1 := by simpa using hlh
    rw [if_neg (by omega)]
    cases Rt2 with
    | nil => simp at hpos
    | cons rt Rt2' =>
    have hyH : ∀ x ∈ H2', y ≤ x := (List.sorted_cons.mp hsH2).1
    have hrtRt : ∀ x ∈ Rt2', rt ≤ x := (List.sorted_cons.mp hsRt2).1
    cases H2' with
    | cons z H2'' =>
      have hone : decide (lh = 1) = false := decide_eq_false (by simp at hlh2; omega)
      rw [hone, condLessE_false_eq, SM.bind_pure, if_neg (by simp)]
      exact heapResidual_tail recur k splitIdx D2 (y :: z :: H2'') (rt :: Rt2') lh
        hD2 hlh hpos hk hk63 hsD2 hsRt2 hDom hrec
    | nil =>
      have hlh1 : lh = 1 := by simpa using hlh2
      have hone : decide (lh = 1) = true := decide_eq_true (by omega)
      rw [hone, condLessE_true_eq]
      have hgy : getE (D2 ++ [y] ++ (rt :: Rt2')) splitIdx = pure y := by
        have e : D2 ++ [y] ++ (rt :: Rt2') = D2 ++ y :: (rt :: Rt2') := by simp
        rw [e]
        exact getE_append_len D2 _ y splitIdx hD2
      have hgrt : getE (D2 ++ [y] ++ (rt :: Rt2')) ri = pure rt := by
        have e : D2 ++ [y] ++ (rt :: Rt2') = (D2 ++ [y]) ++ rt :: Rt2' := by simp
        rw [e]
        exact getE_append_len (D2 ++ [y]) Rt2' rt ri (by simp; omega)
      have hless : Hpkg.lessE (D2 ++ [y] ++ (rt :: Rt2')) splitIdx ri
          = pure (decide (y < rt)) := by
        rw [Hpkg.lessE, hgy, SM.bind_pure, hgrt, SM.bind_pure]
      rw [hless, SM.bind_pure]
      by_cases hyrt : y < rt
      · rw [if_pos (by simp [hyrt])]
        refine ⟨D2 ++ [y] ++ (rt :: Rt2'), [], rfl, ?_, List.Perm.refl _⟩
        have e : D2 ++ [y] ++ (rt :: Rt2') = D2 ++ (y :: rt :: Rt2') := by simp
        rw [e]
        refine sortedAsc_append D2 _ hsD2 ?_ ?_
        · refine List.sorted_cons.mpr ⟨?_, hsRt2⟩
          intro b hb
          rcases (by simpa using hb : b = rt ∨ b ∈ Rt2') with hb' | hb'
          · rw [hb']
            exact le_of_lt hyrt
          · exact le_trans (le_of_lt hyrt) (hrtRt b hb')
        · intro d hd x hx
          exact hDom d hd x (by simpa using hx)
      · rw [if_neg (by simp [hyrt])]
        exact heapResidual_tail recur k splitIdx D2 [y] (rt :: Rt2') lh
          hD2 hlh hpos hk hk63 hsD2 hsRt2 hDom hrec

set_option maxHeartbeats 800000 in
theorem heapAppendSortT_sorted : ∀ (fuel : Nat) (s : List Int) (k : Nat),
    k ≤ s.length → s.length < 2 ^ 63 → s.length < fuel →
    List.Sorted (· ≤ ·) (s.take (s.length - k)) →
    ∃ res tr, Hpkg.heapAppendSortT fuel s k = pure (res, tr) ∧
      List.Sorted (· ≤ ·) res ∧ res ~ s := by
  intro fuel
  induction fuel with
  | zero =>
    intro s k _ _ h _
    omega
  | succ fuel ih =>
    intro s k hk hn hfuel hpre
    rw [Hpkg.heapAppendSortT]
    by_cases hk0 : k = 0
    · rw [if_pos hk0]
      refine ⟨s, [], rfl, ?_, List.Perm.refl s⟩
      have e : s.take (s.length - k) = s := by
        rw [hk0, Nat.sub_zero, List.take_length]
      rwa [e] at hpre
    · rw [if_neg hk0, toInt64_eq k (by omega)]
      by_cases hkn : k = s.length
      · rw [if_pos (by rw [hkn]; ring)]
        exact ⟨goSort s, [], rfl, goSort_sorted s, goSort_perm s⟩
      · have hlt : k < s.length := by omega
        rw [if_neg (by push_cast; omega), if_neg (by push_cast; omega)]
        have hsp : ((s.length : Int) - (k : Int)).toNat = s.length - k := by omega
        rw [hsp, Hpkg.heapGo]
        have hsplit : s.take (s.length - k) ++ s.drop (s.length - k) = s :=
          List.take_append_drop _ s
        have hlenP : (s.take (s.length - k)).length = s.length - k := by
          rw [List.length_take]; omega
        have hlenQ : (goSort (s.drop (s.length - k))).length = k := by
          rw [goSort_length, List.length_drop]; omega
        have hs1 : sortWinAscE s (s.length - k)
            = pure (s.take (s.length - k) ++ goSort (s.drop (s.length - k))) := by
          have h := sortWinAscE_decomp (s.take (s.length - k)) (s.drop (s.length - k))
            (s.length - k) hlenP.symm
          rwa [hsplit] at h
        rw [hs1, SM.bind_pure]
        cases hQ : goSort (s.drop (s.length - k)) with
        | nil =>
          rw [hQ] at hlenQ
          simp at hlenQ
          omega
        | cons q Q' =>
          have hsQ : List.Sorted (· ≤ ·) (q :: Q') := by
            have := goSort_sorted (s.drop (s.length - k))
            rwa [hQ] at this
          have hqQ : ∀ x ∈ Q', q ≤ x := (List.sorted_cons.mp hsQ).1
          have hlenQ2 : (q :: Q').length = k := by rw [← hQ]; exact hlenQ
          have hQperm : (q :: Q') ~ s.drop (s.length - k) := by
            rw [← hQ]
            exact goSort_perm _
          have hgq : getE (s.take (s.length - k) ++ (q :: Q')) (s.length - k) = pure q :=
            getE_append_len _ Q' q _ hlenP.symm
          rw [hgq, SM.bind_pure]
          have hgb : getE (s.take (s.length - k) ++ (q :: Q')) (s.length - k - 1)
              = pure ((s.take (s.length - k)).getD (s.length - k - 1) 0) :=
            getE_append_lt _ _ _ (by omega)
          rw [hgb, SM.bind_pure]
          by_cases hless : ¬ (q < (s.take (s.length - k)).getD (s.length - k - 1) 0)
          · rw [if_pos hless]
            refine ⟨_, [], rfl, ?_, ?_⟩
            · refine sortedAsc_append _ _ hpre hsQ ?_
              intro a ha y hy
              have ha2 := sorted_all_le_last _ hpre a ha
              rw [hlenP] at ha2
              have haq : a ≤ q := by
                have := not_lt.mp hless
                omega
              rcases (by simpa using hy : y = q ∨ y ∈ Q') with hy' | hy'
              · rw [hy']
                exact haq
              · exact le_trans haq (hqQ y hy')
            · calc s.take (s.length - k) ++ (q :: Q')
                  ~ s.take (s.length - k) ++ s.drop (s.length - k) :=
                    List.Perm.append_left _ hQperm
                _ = s := hsplit
          · rw [if_neg hless]
            have hqb : q < (s.take (s.length - k)).getD (s.length - k - 1) 0 :=
              not_not.mp hless
            have hf : ∀ i, i < (s.take (s.length - k)).length →
                (do
                  let x ← (pure q : SM Int)
                  let y ← getE (s.take (s.length - k) ++ (q :: Q')) i
                  pure (decide (x < y)) : SM Bool)
                = pure (decide (q < (s.take (s.length - k)).getD i 0)) := by
              intro i hi
              rw [SM.bind_pure, getE_append_lt _ _ i hi, SM.bind_pure]
            obtain ⟨ms, hms, hmsle, htake, hdrop⟩ :=
              searchChar (s.take (s.length - k)) q hpre (s.length - k)
                (by omega) _ hf
            rw [hlenP] at hms hmsle
            rw [goSearch, hms, SM.bind_pure]
            have hmslt : ms < s.length - k := by
              by_contra hge
              have hms_eq : ms = s.length - k := by omega
              have hmem : (s.take (s.length - k)).getD (s.length - k - 1) 0
                  ∈ s.take (s.length - k) := by
                have hcc : s.length - k - 1 < (s.take (s.length - k)).length := by omega
                rw [List.getD_eq_getElem?_getD, List.getElem?_eq_getElem hcc]
                exact List.getElem_mem _
              have := htake _ (by
                rw [hms_eq, List.take_of_length_le (by omega)]
                exact hmem)
              omega
            rw [if_neg (by omega)]
            have hP01 : (s.take (s.length - k)).take ms
                ++ (s.take (s.length - k)).drop ms = s.take (s.length - k) :=
              List.take_append_drop _ _
            have e2 : s.take (s.length - k) ++ (q :: Q')
                = (s.take (s.length - k)).take ms ++ (s.take (s.length - k)).drop ms
                  ++ [] ++ (q :: Q') := by
              rw [List.append_nil, hP01]
            rw [e2]
            obtain ⟨hsP0, hsP1, hcross⟩ := (sortedAsc_append_iff _ _).mp
              (by rw [hP01]; exact hpre)
            obtain ⟨D2, H2, Rt2, hr2, hh2v, hloop, hlen2, hpos2, hsD2, hsH2, hsRt2,
                hDom2, hperm2⟩ :=
              heapLoop_sorted (s.length - k)
                ((s.take (s.length - k)).take ms ++ (s.take (s.length - k)).drop ms
                  ++ [] ++ (q :: Q')).length
                (s.length - k - ms)
                ((s.take (s.length - k)).take ms) ((s.take (s.length - k)).drop ms)
                [] (q :: Q') ms (s.length - k) 0 false
                (by simp; omega)
                (by simp; omega)
                (by simp)
                (by simp)
                (by omega)
                (by simp)
                (by simp)
                (by simp)
                hsP0 hsP1 List.sorted_nil hsQ
                (by
                  intro d hd x hx
                  simp at hx
                  rcases hx with hx | hx | hx
                  · exact hcross d hd x hx
                  · rw [hx]
                    exact htake d hd
                  · exact le_trans (htake d hd) (hqQ x hx))
            rw [hloop, SM.bind_pure]
            have hkk : H2.length + Rt2.length = k := by
              have hl := hperm2.length_eq
              simp at hl
              have h3 : Q'.length + 1 = k := by
                have := hlenQ2
                simpa using this
              omega
            obtain ⟨res, tr, hresid, hressort, hresperm⟩ :=
              heapResidual_sorted (Hpkg.heapAppendSortT fuel) k (s.length - k)
                D2 H2 Rt2 (s.length - k + H2.length) H2.length
                hlen2.symm rfl rfl hpos2 hkk (by omega) hsD2 hsH2 hsRt2 hDom2
                (by
                  obtain ⟨res0, tr0, he0, hs0, hp0⟩ := ih (Rt2 ++ H2) H2.length
                    (by simp) (by simp; omega) (by simp; omega)
                    (by
                      have he4 : (Rt2 ++ H2).length - H2.length = Rt2.length := by simp
                      rw [he4, take_append_len Rt2 H2 _ rfl]
                      exact hsRt2)
                  exact ⟨res0, tr0, he0, hs0, hp0⟩)
            refine ⟨res, tr, hresid, hressort, ?_⟩
            calc res ~ D2 ++ H2 ++ Rt2 := hresperm
              _ ~ (s.take (s.length - k)).take ms ++ (s.take (s.length - k)).drop ms
                  ++ [] ++ (q :: Q') := hperm2
              _ = s.take (s.length - k) ++ (q :: Q') := e2.symm
              _ ~ s.take (s.length - k) ++ s.drop (s.length - k) :=
                  List.Perm.append_left _ hQperm
              _ = s := hsplit

theorem SM.bind_eq_ok {α β : Type} (x : SM α) (f : α → SM β) (v : β)
    (h : x >>= f = pure v) : ∃ a, x = pure a ∧ f a = pure v := by
  cases x with
  | error e =>
    rw [SM.error_bind] at h
    exact absurd h (fun hc => Except.noConfusion hc)
  | ok a =>
    rw [SM.ok_bind] at h
    exact ⟨a, rfl, h⟩

theorem heapResidual_trace
    (recur : List Int → Nat → SM (List Int × List (Nat × Nat × Bool)))
    (k splitIdx : Nat) (s2 : List Int) (ri lh : Nat)
    (res : List Int) (tr : List (Nat × Nat × Bool))
    (hrec : ∀ w kk res' tr', recur w kk = pure (res', tr') →
      ∀ e ∈ tr', e.2.2 = Hpkg.shouldUseAppended e.1 e.2.1)
    (h : Hpkg.heapResidual recur k splitIdx s2 ri lh = pure (res, tr)) :
    ∀ e ∈ tr, e.2.2 = Hpkg.shouldUseAppended e.1 e.2.1 := by
  rw [Hpkg.heapResidual] at h
  by_cases hlh0 : lh = 0
  · rw [if_pos hlh0] at h
    have h3 : ([] : List (Nat × Nat × Bool)) = tr := congrArg Prod.snd (Except.ok.inj h)
    rw [← h3]
    simp
  · rw [if_neg hlh0] at h
    cases hcl : Hpkg.condLessE (decide (lh = 1)) s2 splitIdx ri with
    | error e =>
      rw [hcl, SM.error_bind] at h
      exact absurd h (fun hc => Except.noConfusion hc)
    | ok b =>
      rw [hcl, SM.ok_bind] at h
      cases b with
      | true =>
        rw [if_pos rfl] at h
        have h3 : ([] : List (Nat × Nat × Bool)) = tr :=
          congrArg Prod.snd (Except.ok.inj h)
        rw [← h3]
        simp
      | false =>
        rw [if_neg (by simp)] at h
        by_cases hsel : Hpkg.shouldUseAppended k lh
        · rw [if_neg (by simpa using hsel)] at h
          cases hrot : rotateE s2 splitIdx s2.length (toInt64 k - (lh : Int)) with
          | error e =>
            rw [hrot, SM.error_bind] at h
            exact absurd h (fun hc => Except.noConfusion hc)
          | ok s3 =>
            rw [hrot, SM.ok_bind] at h
            cases hrx : recur (extract s3 splitIdx s3.length) lh with
            | error e =>
              rw [hrx, SM.error_bind] at h
              exact absurd h (fun hc => Except.noConfusion hc)
            | ok r =>
              rw [hrx, SM.ok_bind] at h
              have h3 : (k, lh, true) :: r.2 = tr :=
                congrArg Prod.snd (Except.ok.inj h)
              rw [← h3]
              intro e he
              rcases List.mem_cons.mp he with he' | he'
              · rw [he']
                exact hsel.symm
              · exact hrec _ _ _ _ hrx e he'
        · rw [if_pos (by simpa using hsel)] at h
          have h3 : [(k, lh, false)] = tr := congrArg Prod.snd (Except.ok.inj h)
          rw [← h3]
          intro e he
          have he' : e = (k, lh, false) := by simpa using he
          rw [he']
          simp at hsel
          exact hsel.symm

theorem heapAppendSortT_trace : ∀ (fuel : Nat) (s : List Int) (k : Nat)
    (res : List Int) (tr : List (Nat × Nat × Bool)),
    Hpkg.heapAppendSortT fuel s k = pure (res, tr) →
    ∀ e ∈ tr, e.2.2 = Hpkg.shouldUseAppended e.1 e.2.1 := by
  intro fuel
  induction fuel with
  | zero =>
    intro s k res tr h
    exact absurd h (fun hc => Except.noConfusion hc)
  | succ fuel ih =>
    intro s k res tr h
    rw [Hpkg.heapAppendSortT] at h
    by_cases hk0 : k = 0
    · rw [if_pos hk0] at h
      have h3 : ([] : List (Nat × Nat × Bool)) = tr :=
        congrArg Prod.snd (Except.ok.inj h)
      rw [← h3]
      simp
    · rw [if_neg hk0] at h
      by_cases hc2 : (s.length : Int) - toInt64 k = 0
      · rw [if_pos hc2] at h
        have h3 : ([] : List (Nat × Nat × Bool)) = tr :=
          congrArg Prod.snd (Except.ok.inj h)
        rw [← h3]
        simp
      · rw [if_neg hc2] at h
        by_cases hc3 : 0 ≤ (s.length : Int) - toInt64 k ∧
            (s.length : Int) - toInt64 k ≤ (s.length : Int)
        · rw [if_neg (not_not_intro hc3), Hpkg.heapGo] at h
          cases hsw : sortWinAscE s (((s.length : Int) - toInt64 k).toNat) with
          | error e =>
            rw [hsw, SM.error_bind] at h
            exact absurd h (fun hc => Except.noConfusion hc)
          | ok s1 =>
            rw [hsw, SM.ok_bind] at h
            cases hga : getE s1 (((s.length : Int) - toInt64 k).toNat) with
            | error e =>
              rw [hga, SM.error_bind] at h
              exact absurd h (fun hc => Except.noConfusion hc)
            | ok a =>
              rw [hga, SM.ok_bind] at h
              cases hgb2 : getE s1 ((((s.length : Int) - toInt64 k).toNat) - 1) with
              | error e =>
                rw [hgb2, SM.error_bind] at h
                exact absurd h (fun hc => Except.noConfusion hc)
              | ok b =>
                rw [hgb2, SM.ok_bind] at h
                by_cases hab : ¬ (a < b)
                · rw [if_pos hab] at h
                  have h3 : ([] : List (Nat × Nat × Bool)) = tr :=
                    congrArg Prod.snd (Except.ok.inj h)
                  rw [← h3]
                  simp
                · rw [if_neg hab] at h
                  cases hms : goSearch (((s.length : Int) - toInt64 k).toNat)
                      (fun i => do
                        let x ← (Except.ok a : SM Int)
                        let y ← getE s1 i
                        pure (decide (x < y))) with
                  | error e =>
                    rw [hms, SM.error_bind] at h
                    exact absurd h (fun hc => Except.noConfusion hc)
                  | ok ms =>
                    rw [hms, SM.ok_bind] at h
                    by_cases hge : ms ≥ ((s.length : Int) - toInt64 k).toNat
                    · rw [if_pos hge] at h
                      exact absurd h (fun hc => Except.noConfusion hc)
                    · rw [if_neg hge] at h
                      cases hlp : Hpkg.heapLoop (((s.length : Int) - toInt64 k).toNat)
                          s1.length ((((s.length : Int) - toInt64 k).toNat) - ms) s1 ms
                          (((s.length : Int) - toInt64 k).toNat) 0 true false with
                      | error e =>
                        rw [hlp, SM.error_bind] at h
                        exact absurd h (fun hc => Except.noConfusion hc)
                      | ok st =>
                        rw [hlp, SM.ok_bind] at h
                        exact heapResidual_trace (Hpkg.heapAppendSortT fuel) k
                          (((s.length : Int) - toInt64 k).toNat) st.1 st.2.1 st.2.2.1
                          res tr (fun w kk r' t' hw => ih w kk r' t' hw) h
        · rw [if_pos (by simpa using hc3)] at h
          exact absurd h (fun hc => Except.noConfusion hc)

/-! ## Claim theorems -/

/-- C1: for every sequence with a sorted-ascending prefix s[0, n−k), both
Appended(s, k) and AppendedWithBuf(s, buf) with len(buf) = k succeed and leave
the whole sequence sorted ascending with the original element multiset (a
permutation: no loss or duplication). -/
theorem C1_appended_correct (s buf : List Int) (k : Nat) (hk : k ≤ s.length)
    (hn : s.length < 2 ^ 63) (hbuf : buf.length = k)
    (hpre : List.Sorted (· ≤ ·) (s.take (s.length - k))) :
    (∃ w, XSort.Appended s k = pure w ∧ List.Sorted (· ≤ ·) w ∧ w ~ s) ∧
    (∃ w, XSort.AppendedWithBuf s buf = pure w ∧ List.Sorted (· ≤ ·) w ∧ w ~ s) := by
  refine ⟨Appended_ok s k hk hn hpre, ?_⟩
  exact AppendedWithBuf_ok s buf (by omega) (by rw [hbuf]; exact hpre)

/-- Witness for C1 at s = [2,4,6,9,8,1,3], k = 3, buf = [0,0,0]. -/
theorem C1_witness :
    (∃ w, XSort.Appended [2, 4, 6, 9, 8, 1, 3] 3 = pure w ∧
      List.Sorted (· ≤ ·) w ∧ w ~ [2, 4, 6, 9, 8, 1, 3]) ∧
    (∃ w, XSort.AppendedWithBuf [2, 4, 6, 9, 8, 1, 3] [0, 0, 0] = pure w ∧
      List.Sorted (· ≤ ·) w ∧ w ~ [2, 4, 6, 9, 8, 1, 3]) :=
  C1_appended_correct [2, 4, 6, 9, 8, 1, 3] [0, 0, 0] 3 (by decide) (by decide)
    (by decide) (by decide)

/-- C2: under the shared precondition (sorted prefix, 0 < k ≤ n), the in-place
engine, the buffered engine with len(buf) = k and the heap-merge engine all
produce the identical final sequence. -/
theorem C2_engines_agree (s buf : List Int) (k fuel : Nat) (hk0 : 0 < k)
    (hk : k ≤ s.length) (hn : s.length < 2 ^ 63) (hbuf : buf.length = k)
    (hfuel : s.length < fuel)
    (hpre : List.Sorted (· ≤ ·) (s.take (s.length - k))) :
    ∃ w, XSort.groupInsertAppendSort s k = pure w ∧
      XSort.groupInsertAppendSortWithBuf s buf = pure w ∧
      Hpkg.heapAppendSort fuel s k = pure w := by
  obtain ⟨w1, h1, hs1, hp1⟩ := gias_ok s k hk hn hpre
  obtain ⟨w2, h2, hs2, hp2⟩ := gwb_ok s buf (by omega) (by rw [hbuf]; exact hpre)
  obtain ⟨res, tr, h3, hs3, hp3⟩ := heapAppendSortT_sorted fuel s k hk hn hfuel hpre
  have he2 : w2 = w1 := List.eq_of_perm_of_sorted (hp2.trans hp1.symm) hs2 hs1
  have he3 : res = w1 := List.eq_of_perm_of_sorted (hp3.trans hp1.symm) hs3 hs1
  refine ⟨w1, h1, by rw [← he2]; exact h2, ?_⟩
  rw [Hpkg.heapAppendSort, h3, ← he3]
  rfl

/-- Witness for C2 at s = [1,3,5,7,11,13,12,6,4,8], k = 4, buf = [9,9,9,9]. -/
theorem C2_witness :
    ∃ w, XSort.groupInsertAppendSort [1, 3, 5, 7, 11, 13, 12, 6, 4, 8] 4 = pure w ∧
      XSort.groupInsertAppendSortWithBuf [1, 3, 5, 7, 11, 13, 12, 6, 4, 8]
        [9, 9, 9, 9] = pure w ∧
      Hpkg.heapAppendSort 11 [1, 3, 5, 7, 11, 13, 12, 6, 4, 8] 4 = pure w :=
  C2_engines_agree [1, 3, 5, 7, 11, 13, 12, 6, 4, 8] [9, 9, 9, 9] 4 11 (by decide)
    (by decide) (by decide) (by decide) (by decide) (by decide)

/-- C3: a tail length exceeding the sequence length makes both entry points
fail with an error that carries the unchanged sequence (the multiset is
intact at the moment the error is raised); a tail length within bounds never
produces an error. -/
theorem C3_error_contract (s buf : List Int) (k : Nat) (hn : s.length < 2 ^ 63)
    (hku : k < U64) :
    (k > s.length → ∃ e, XSort.Appended s k = Except.error e ∧ errState e = some s) ∧
    (buf.length > s.length →
      ∃ e, XSort.AppendedWithBuf s buf = Except.error e ∧ errState e = some s) ∧
    (k ≤ s.length → ∃ w, XSort.Appended s k = pure w) ∧
    (buf.length ≤ s.length → ∃ w, XSort.AppendedWithBuf s buf = pure w) :=
  ⟨fun hk => Appended_err s k hk hn hku,
   fun hb => AppendedWithBuf_err s buf hb,
   fun hk => Appended_total s k hk hn,
   fun hb => AppendedWithBuf_total s buf hb⟩

/-- Witness for C3 at s = [5,1], k = 7, buf = [0,0,0]. -/
theorem C3_witness :
    (7 > List.length [(5 : Int), 1] → ∃ e, XSort.Appended [5, 1] 7 = Except.error e ∧
      errState e = some [5, 1]) ∧
    (List.length [(0 : Int), 0, 0] > List.length [(5 : Int), 1] →
      ∃ e, XSort.AppendedWithBuf [5, 1] [0, 0, 0] = Except.error e ∧
        errState e = some [5, 1]) ∧
    (7 ≤ List.length [(5 : Int), 1] → ∃ w, XSort.Appended [5, 1] 7 = pure w) ∧
    (List.length [(0 : Int), 0, 0] ≤ List.length [(5 : Int), 1] →
      ∃ w, XSort.AppendedWithBuf [5, 1] [0, 0, 0] = pure w) :=
  C3_error_contract [5, 1] [0, 0, 0] 7 (by decide) (by decide)

/-- C4 (amended): the heuristic selectors compute the spec's exact threshold
formulas whenever the products fit in a 64-bit uint — for all k < 2^32 and
n < 2^61; outside that range the uint modulus makes them diverge. -/
theorem C4_selectors_exact (n k : Nat) (hk : k < 2 ^ 32) (hn : n < 2 ^ 61) :
    XSort.shouldUseAppended n k = specShouldUseInPlace n k ∧
    XSort.shouldUseAppendedWithBuf n k = specShouldUseBuffered n k :=
  selectors_exact n k hk hn

/-- Counterexample for C4 as stated: at n = 2^33, k = 2^32 the code's
in-place selector accepts (k·k overflows to 0) while the spec's exact
formula k²/64 < n rejects. -/
theorem C4_counterexample :
    XSort.shouldUseAppended (2 ^ 33) (2 ^ 32) = true ∧
    specShouldUseInPlace (2 ^ 33) (2 ^ 32) = false := by decide

/-- Witness for C4 at n = 1000, k = 10. -/
theorem C4_witness :
    XSort.shouldUseAppended 1000 10 = specShouldUseInPlace 1000 10 ∧
    XSort.shouldUseAppendedWithBuf 1000 10 = specShouldUseBuffered 1000 10 :=
  C4_selectors_exact 1000 10 (by decide) (by decide)

/-- C5 (amended): every residual decision the heap-merge engine records — the
triple (window size, residual heap size, recursed?) — agrees with the heap
package's own shouldUseAppended selector (totalSize ≤ 4: never; ≤ 128: 8k < n;
≤ 4096: 4k² < n; else k < 64), not with the §4.1 in-place selector. -/
theorem C5_residual_selector (fuel : Nat) (s : List Int) (k : Nat)
    (res : List Int) (tr : List (Nat × Nat × Bool))
    (h : Hpkg.heapAppendSortT fuel s k = pure (res, tr)) :
    ∀ e ∈ tr, e.2.2 = Hpkg.shouldUseAppended e.1 e.2.1 :=
  heapAppendSortT_trace fuel s k res tr h

/-- Counterexample for C5 as stated: on s = [10,20,1,…,1] with k = 10 the
engine reaches the residual with window 10 and heap size 2, delegates to the
full sort (decision false), yet the §4.1 in-place selector at (10, 2) says
recursion is profitable (4·2 < 10). -/
theorem C5_counterexample :
    Hpkg.heapAppendSortT 20 [10, 20, 1, 1, 1, 1, 1, 1, 1, 1, 1, 1] 10
      = pure ([1, 1, 1, 1, 1, 1, 1, 1, 1, 1, 10, 20], [(10, 2, false)]) ∧
    specShouldUseInPlace 10 2 = true := ⟨by rfl, by decide⟩

/-- Witness for C5 on the same run, whose single decision (10, 2, false)
matches the heap package's selector. -/
theorem C5_witness :
    ((10, 2, false) : Nat × Nat × Bool).2.2
      = Hpkg.shouldUseAppended ((10, 2, false) : Nat × Nat × Bool).1
          ((10, 2, false) : Nat × Nat × Bool).2.1 :=
  C5_residual_selector 20 [10, 20, 1, 1, 1, 1, 1, 1, 1, 1, 1, 1] 10
    [1, 1, 1, 1, 1, 1, 1, 1, 1, 1, 10, 20] [(10, 2, false)] (by rfl)
    (10, 2, false) (by simp)

/-- C6 (amended): for fixed n both selectors are monotone in the tail size as
long as the larger tail fits below 2^32 (no overflow): once false at k they
stay false at every larger such k'. -/
theorem C6_selectors_mono (n k k' : Nat) (hlt : k < k') (hk' : k' < 2 ^ 32) :
    (XSort.shouldUseAppended n k = false → XSort.shouldUseAppended n k' = false) ∧
    (XSort.shouldUseAppendedWithBuf n k = false →
      XSort.shouldUseAppendedWithBuf n k' = false) :=
  selectors_mono n k k' hlt hk'

/-- Counterexample for C6 as stated over machine integers: at n = 1000 the
in-place selector is false at k = 1000 yet true again at k' = 2^32 (k'·k'
overflows to 0), a rejection flipping back into an acceptance. -/
theorem C6_counterexample :
    1000 < 2 ^ 32 ∧ XSort.shouldUseAppended 1000 1000 = false ∧
    XSort.shouldUseAppended 1000 (2 ^ 32) = true := by decide

/-- Witness for C6 at n = 100, k = 40 < k' = 50. -/
theorem C6_witness :
    (XSort.shouldUseAppended 100 40 = false → XSort.shouldUseAppended 100 50 = false) ∧
    (XSort.shouldUseAppendedWithBuf 100 40 = false →
      XSort.shouldUseAppendedWithBuf 100 50 = false) :=
  C6_selectors_mono 100 40 50 (by decide) (by decide)

/-- C7: Appended with k = 0 and AppendedWithBuf with an empty buffer are
no-ops, and both entry points at k = n produce exactly the full-sort result. -/
theorem C7_boundary (s buf : List Int) :
    XSort.Appended s 0 = pure s ∧
    XSort.AppendedWithBuf s [] = pure s ∧
    (s.length < 2 ^ 63 → XSort.Appended s s.length = pure (goSort s)) ∧
    (buf.length = s.length → XSort.AppendedWithBuf s buf = pure (goSort s)) :=
  ⟨Appended_zero s, AppendedWithBuf_nilbuf s,
   fun hn => Appended_full s hn, fun hb => AppendedWithBuf_full s buf hb⟩

/-- Witness for C7 at s = [4,2,5], buf = [7,7,7]. -/
theorem C7_witness :
    XSort.Appended [4, 2, 5] 0 = pure [4, 2, 5] ∧
    XSort.AppendedWithBuf [4, 2, 5] [] = pure [4, 2, 5] ∧
    (List.length [(4 : Int), 2, 5] < 2 ^ 63 →
      XSort.Appended [4, 2, 5] (List.length [(4 : Int), 2, 5])
        = pure (goSort [4, 2, 5])) ∧
    (List.length [(7 : Int), 7, 7] = List.length [(4 : Int), 2, 5] →
      XSort.AppendedWithBuf [4, 2, 5] [7, 7, 7] = pure (goSort [4, 2, 5])) :=
  C7_boundary [4, 2, 5] [7, 7, 7]

/-- C8: the buffered entry point never reads the scratch buffer's prior
contents — two buffers of equal length yield identical results on the same
sequence. -/
theorem C8_buffer_blind (s b1 b2 : List Int) (h : b1.length = b2.length) :
    XSort.AppendedWithBuf s b1 = XSort.AppendedWithBuf s b2 :=
  AppendedWithBuf_blind s b1 b2 h

/-- Witness for C8 at s = [3,1,2], buffers [100,200] and [0,5]. -/
theorem C8_witness :
    XSort.AppendedWithBuf [3, 1, 2] [100, 200] = XSort.AppendedWithBuf [3, 1, 2] [0, 5] :=
  C8_buffer_blind [3, 1, 2] [100, 200] [0, 5] (by decide)

/-- C9: the heap-merge engine terminates on every input with k ≤ n: modelled
with explicit fuel, it never exhausts any fuel exceeding the sequence length,
because the recursive self-invocation runs on the strictly smaller tail
window. -/
theorem C9_heap_terminates (fuel : Nat) (s : List Int) (k : Nat) (hk : k ≤ s.length)
    (hn : s.length < 2 ^ 63) (hfuel : s.length < fuel) :
    Hpkg.heapAppendSortT fuel s k ≠ Except.error SErr.noFuel :=
  heapAppendSortT_noFuel fuel s k hk hn hfuel

/-- Witness for C9 at s = [3,1,2], k = 2, fuel = 5. -/
theorem C9_witness : Hpkg.heapAppendSortT 5 [3, 1, 2] 2 ≠ Except.error SErr.noFuel :=
  C9_heap_terminates 5 [3, 1, 2] 2 (by decide) (by decide) (by decide)

/-- C10: for 0 < k ≤ n, whether or not the prefix is sorted, both gias
engines run to completion returning a same-length sequence — the embedding's
out-of-range error branch is unreachable, so every index they use is in
bounds. -/
theorem C10_index_safety (s buf : List Int) (k : Nat) (hk0 : 0 < k)
    (hk : k ≤ s.length) (hn : s.length < 2 ^ 63) (hbuf : buf.length = k) :
    (∃ w, XSort.groupInsertAppendSort s k = pure w ∧ w.length = s.length) ∧
    (∃ w, XSort.groupInsertAppendSortWithBuf s buf = pure w ∧
      w.length = s.length) :=
  ⟨gias_bounds s k hk hn, gwb_bounds s buf (by omega)⟩

/-- Witness for C10 at the unsorted s = [9,2,7,1], k = 2, buf = [4,3]. -/
theorem C10_witness :
    (∃ w, XSort.groupInsertAppendSort [9, 2, 7, 1] 2 = pure w ∧
      w.length = List.length [(9 : Int), 2, 7, 1]) ∧
    (∃ w, XSort.groupInsertAppendSortWithBuf [9, 2, 7, 1] [4, 3] = pure w ∧
      w.length = List.length [(9 : Int), 2, 7, 1]) :=
  C10_index_safety [9, 2, 7, 1] [4, 3] 2 (by decide) (by decide) (by decide) (by decide)
